import Mathlib

/-!
Verification development for the Math Academy statistics browser extension.

The definitions below are a shallow embedding of the repository's core
modules:

* `src/entrypoints/popup/fetchActivities.ts` — the time-window cursor
  paginator, the deduplicating merge cache, the window filter and the
  time-descending sort;
* `src/types/mathacademy.ts` — the daily aggregation and attainment
  calculations;
* `src/entrypoints/overview/chart-data.ts` — the 7-day rolling attainment
  series;
* `src/entrypoints/frontier/fetchFrontierTopics.ts` — the knowledge-graph
  frontier ranker.

Conventions of the embedding:

* JavaScript numbers that hold millisecond timestamps are embedded as `Int`
  (they are integral in every code path modelled here); XP point values are
  embedded as `Int` and attainment percentages as `ℚ`.
* A field that JavaScript may leave `undefined` (or that a runtime guard
  such as `typeof id === 'number'` treats as possibly missing) is embedded
  as an `Option`.
* The source's `getItemTimeMs` parses the `completed` field (a finite
  number, a numeric string, or a date string) to a millisecond value or
  `undefined`.  The embedding abstracts the string-parsing itself and
  stores the parse result directly: `completed : Option Int` is the
  best-known completed time in milliseconds, `none` meaning the field is
  absent or unparsable.
* Network effects are embedded by passing the remote server as an explicit
  function from the request cursor to the returned page, and the HTTP
  transport outcome as an explicit value.
-/

/-- Embedding of the `Test` association of an activity
(`src/types/mathacademy.ts`): only the test name is relevant to the
modelled computations; `none` stands for a missing test object or a null
name. -/
structure TestInfo where
  name : Option String
deriving DecidableEq, Repr

/-- Embedding of the `Activity` record (`src/types/mathacademy.ts`),
restricted to the fields the modelled computations read.  `id` is `none`
when the runtime value fails the source's `typeof id === 'number'` guard;
`completed` holds the result of `getItemTimeMs`-style parsing (see module
docstring); `points`/`pointsAwarded` are `none` when absent, and the
source's `x || d` defaulting is embedded by `jsOrInt`. -/
structure Activity where
  id : Option Int
  type : String
  points : Option Int
  pointsAwarded : Option Int
  completed : Option Int
  test : Option TestInfo
deriving DecidableEq, Repr

/-- Embedding of the JavaScript expression `x || d` on a `number |
undefined` value: `undefined` and `0` are falsy and fall through to the
default. -/
def jsOrInt (x : Option Int) (d : Int) : Int :=
  match x with
  | none => d
  | some v => if v = 0 then d else v

/-- Embedding of `getItemTimeMs` (`fetchActivities.ts` lines 104-125): the
best-known completed time of an item in milliseconds, `none` when the
`completed` field is absent or unparsable.  The JavaScript numeric- and
date-string parsing is abstracted to its result, which the `Activity`
embedding stores directly. -/
def getItemTimeMs (item : Activity) : Option Int :=
  item.completed

/-- Ordering key used by `sortActivities`: `bestTime` in the source maps an
unresolvable completed time to `-Infinity`; the embedding uses `none` as
the bottom element, compared by `timeKeyLE`. -/
def bestTime (item : Activity) : Option Int :=
  getItemTimeMs item

/-- Order on best-known times with `none` as `-Infinity` (the bottom
element). -/
def timeKeyLE (x y : Option Int) : Bool :=
  match x, y with
  | none, _ => true
  | some _, none => false
  | some a, some b => a ≤ b

/-- The comparator order of `sortActivities`: `a` may precede `b` when the
source comparator `bestTime(b) - bestTime(a)` is non-positive. -/
def actTimeGE (a b : Activity) : Prop :=
  timeKeyLE (bestTime b) (bestTime a) = true

instance : DecidableRel actTimeGE :=
  fun a b => inferInstanceAs (Decidable (timeKeyLE (bestTime b) (bestTime a) = true))

instance : IsTotal Activity actTimeGE :=
  ⟨fun a b => by
    unfold actTimeGE
    cases bestTime b <;> cases bestTime a <;> simp [timeKeyLE] <;> omega⟩

instance : IsTrans Activity actTimeGE :=
  ⟨fun a b c hab hbc => by
    unfold actTimeGE at hab hbc ⊢
    revert hab hbc
    cases bestTime a <;> cases bestTime b <;> cases bestTime c <;>
      simp [timeKeyLE] <;> omega⟩

/-- Embedding of `sortActivities` (`fetchActivities.ts` lines 132-134):
sort descending by best-known completed time, unresolvable times last.
The source's in-place `Array.prototype.sort` with comparator
`bestTime(b) - bestTime(a)` is embedded as a sort producing a permutation
ordered by the corresponding relation. -/
def sortActivities (items : List Activity) : List Activity :=
  items.insertionSort actTimeGE

/-- `MAX_PAGES` from `fetchActivities.ts` line 3. -/
def MAX_PAGES : Nat := 200

/-- The 1000-day backoff jump (`OVERLAP_DAYS * 86400_000` milliseconds,
`fetchActivities.ts` lines 5 and 211). -/
def OVERLAP_MS : Int := 1000 * 86400000

/-- The one-minute lead time subtracted from the oldest page timestamp
(`fetchActivities.ts` line 246). -/
def LEAD_MS : Int := 60000

/-- The trailing window span: 3 years in milliseconds
(`fetchActivities.ts` line 186). -/
def WINDOW_SPAN_MS : Int := 3 * 365 * 24 * 60 * 60 * 1000

/-- In-flight per-page deduplication (`fetchActivities.ts` lines 221-235):
walk the page in order; an item whose numeric id is already in `seen` is
skipped (but pagination continues); a fresh numeric id is added to `seen`;
items without a numeric id are always kept.  Returns the grown seen set
and the fresh items in page order. -/
def dedupPage (seen : List Int) (page : List Activity) : List Int × List Activity :=
  match page with
  | [] => (seen, [])
  | item :: rest =>
    match item.id with
    | some n =>
      if n ∈ seen then
        dedupPage seen rest
      else
        let r := dedupPage (n :: seen) rest
        (r.1, item :: r.2)
    | none =>
      let r := dedupPage seen rest
      (r.1, item :: r.2)

/-- State of the pagination loop of `fetchAllActivities`
(`fetchActivities.ts` lines 198-275).  `lastCursorMs` is not part of the
state: at every loop head it equals `cursor.getTime()` (it is initialised
to the cursor and re-synchronised at the end of each iteration), so the
embedding uses the current cursor in its place.  `fetches` counts the
`fetchPage` calls made so far. -/
structure LoopState where
  cursor : Int
  pages : Nat
  seen : List Int
  newActs : List Activity
  fetches : Nat
deriving Repr

/-- Cursor update for a non-empty page (`fetchActivities.ts` lines
241-258): take the minimum parsable completed time on the page, subtract
the one-minute lead; if that makes no strict progress, or no time on the
page is parsable, jump back 1000 days instead. -/
def nextCursor (cursor : Int) (page : List Activity) : Int :=
  match (page.filterMap getItemTimeMs).min? with
  | some oldest =>
    let nextMs := oldest - LEAD_MS
    if ¬ (nextMs < cursor) then cursor - OVERLAP_MS else nextMs
  | none => cursor - OVERLAP_MS

/-- Loop-state update for an empty page (`fetchActivities.ts` lines
209-219): count the fetch and jump the cursor back 1000 days; the page
counter does not advance. -/
def emptyStep (s : LoopState) : LoopState :=
  { s with fetches := s.fetches + 1, cursor := s.cursor - OVERLAP_MS }

/-- Loop-state update for a non-empty page (`fetchActivities.ts` lines
221-261): count the fetch, deduplicate the page against the seen ids,
append the fresh items, advance the page counter and move the cursor. -/
def pageStep (s : LoopState) (page : List Activity) : LoopState :=
  { cursor := nextCursor s.cursor page, pages := s.pages + 1,
    seen := (dedupPage s.seen page).1,
    newActs := s.newActs ++ (dedupPage s.seen page).2,
    fetches := s.fetches + 1 }

/-- One fetch cycle's pagination loop (`fetchActivities.ts` lines
204-275), embedded with explicit fuel.  `srv` is the remote endpoint: the
page returned for a given request cursor.  After either kind of step the
loop stops when the cursor has crossed the window start or is unchanged
(lines 213-214 and 263-271).  The result is `none` only when the fuel
runs out; the termination development below shows fuel `MAX_PAGES + 3`
always suffices. -/
def runLoop (srv : Int → List Activity) (wStart : Int) :
    Nat → LoopState → Option LoopState
  | 0, _ => none
  | fuel + 1, s =>
    if s.pages < MAX_PAGES then
      if srv s.cursor = [] then
        let s1 := emptyStep s
        if s1.cursor < wStart then some s1
        else if s1.cursor = s.cursor then some s1
        else runLoop srv wStart fuel s1
      else
        let s2 := pageStep s (srv s.cursor)
        if s2.cursor < wStart then some s2
        else if s2.cursor = s.cursor then some s2
        else runLoop srv wStart fuel s2
    else some s

/-- The numeric ids of a list of activities, in order. -/
def idsOf (l : List Activity) : List Int :=
  l.filterMap (fun a => a.id)

/-- The merge of newly fetched activities with the cached ones
(`fetchActivities.ts` lines 277-296): start from the new activities,
record their numeric ids, then append each cached item whose numeric id
has not been taken (items without a numeric id are always appended). -/
def mergeStep (acc : List Activity × List Int) (item : Activity) :
    List Activity × List Int :=
  match item.id with
  | some n =>
    if n ∈ acc.2 then acc else (acc.1 ++ [item], n :: acc.2)
  | none => (acc.1 ++ [item], acc.2)

/-- Combined list after the merge phase (`fetchActivities.ts` lines
277-296). -/
def mergePhase (newActs cached : List Activity) : List Activity :=
  (cached.foldl mergeStep (newActs, idsOf newActs)).1

/-- The window filter (`fetchActivities.ts` lines 298-302): an item with a
resolvable completed time must lie within `[wStart, wEnd]`; an item whose
time is unresolvable passes unconditionally. -/
def windowPred (wStart wEnd : Int) (item : Activity) : Bool :=
  match getItemTimeMs item with
  | none => true
  | some t => wStart ≤ t ∧ t ≤ wEnd

/-- Embedding of `getCachedActivities` (`fetchActivities.ts` lines 52-55):
a sorted copy of the cached items. -/
def getCachedActivities (cached : List Activity) : List Activity :=
  sortActivities cached

/-- One whole fetch cycle of `fetchAllActivities` (`fetchActivities.ts`
lines 169-311) as a pure function of the remote server `srv`, the window
end (`Date.now()` at the start of the cycle) and the previously cached
items.  Returns the final activity list — which the source both writes to
the cache and returns — or `none` if the loop fuel were to run out (the
termination development shows it cannot). -/
def fetchCycle (srv : Int → List Activity) (wEnd : Int)
    (cached : List Activity) : Option (List Activity) :=
  let cachedActivities := getCachedActivities cached
  let wStart := wEnd - WINDOW_SPAN_MS
  let s0 : LoopState :=
    { cursor := wEnd, pages := 0, seen := idsOf cachedActivities,
      newActs := [], fetches := 0 }
  match runLoop srv wStart (MAX_PAGES + 3) s0 with
  | none => none
  | some s =>
    let combined := mergePhase s.newActs cachedActivities
    let inWindow := combined.filter (windowPred wStart wEnd)
    some (sortActivities inWindow)

/-- The number of `fetchPage` calls a fetch cycle performs (the loop part
of `fetchCycle`, exposed for the page-cap analysis). -/
def fetchCycleCalls (srv : Int → List Activity) (wEnd : Int)
    (cached : List Activity) : Option (Nat × Nat) :=
  let cachedActivities := getCachedActivities cached
  let wStart := wEnd - WINDOW_SPAN_MS
  let s0 : LoopState :=
    { cursor := wEnd, pages := 0, seen := idsOf cachedActivities,
      newActs := [], fetches := 0 }
  match runLoop srv wStart (MAX_PAGES + 3) s0 with
  | none => none
  | some s => some (s.fetches, s.pages)

/-- The possible shapes of the raw string stored under the cache key, as
`readCache` (`fetchActivities.ts` lines 16-36) distinguishes them:
the key may be absent or empty (`!raw`), the string may fail `JSON.parse`
(the exception is caught), the parsed value may be a bare activity array
(the legacy format), an object carrying an `items` array (the wrapped
`{items, updatedAt}` payload), a truthy value with no `items` array, or a
falsy parsed value such as JSON `null`. -/
inductive RawCache where
  | absent
  | invalidJson
  | jsonArr (xs : List Activity)
  | jsonObjWithItems (items : List Activity) (updatedAt : String)
  | jsonTruthyNoItems
  | jsonFalsy
deriving DecidableEq, Repr

/-- Embedding of `readCache` (`fetchActivities.ts` lines 16-36): a total
function — every failure path is caught and falls through to `[]`. -/
def readCache (raw : RawCache) : List Activity :=
  match raw with
  | .absent => []
  | .invalidJson => []
  | .jsonArr xs => xs
  | .jsonObjWithItems items _ => items
  | .jsonTruthyNoItems => []
  | .jsonFalsy => []

/-- Embedding of `getCachedActivities` as invoked on a stored raw cache
value (`fetchActivities.ts` lines 52-55). -/
def getCachedFromRaw (raw : RawCache) : List Activity :=
  sortActivities (readCache raw)

/-- The body of an arrived response as `fetchPage` observes it through
`await response.json()` (`fetchActivities.ts` line 155): an array of
activity-shaped records; some other valid JSON value, carried with the
`typeof`-style type name the source reports (`'null'` for null) and its
`JSON.stringify(data, null, 2)` rendering used for the preview; or a body
that is not valid JSON at all, in which case `response.json()` rejects
with an engine `SyntaxError` — carried here as its message string — that
the source does not catch (the `try`/`catch` wraps only the `fetch` call
at lines 140-149). -/
inductive JsonBody where
  | arr (xs : List Activity)
  | nonArray (typeName : String) (stringified : String)
  | invalidJson (syntaxErrMsg : String)
deriving DecidableEq, Repr

/-- Outcome of the HTTP transport for one `fetch` call in `fetchPage`
(`fetchActivities.ts` lines 136-167): either the request itself fails
(rejected promise, caught at lines 142-149), or a response arrives with a
status, a status text and a body — the body possibly failing to parse as
JSON (`JsonBody.invalidJson`). -/
inductive FetchOutcome where
  | netError (msg : String)
  | response (status : Nat) (statusText : String) (body : JsonBody)
deriving DecidableEq, Repr

/-- Occurrence of one string inside another, witnessed by the surrounding
pieces. -/
def containsStr (msg sub : String) : Prop :=
  ∃ p q, msg = p ++ sub ++ q

/-- Error message for a failed `fetch` call (`fetchActivities.ts` lines
144-148). -/
def netErrMsg (m url : String) : String :=
  "Failed to fetch: " ++ m ++ "\nURL: " ++ url ++
    "\nThis might be a network error, CORS issue, or missing host_permissions in the extension manifest."

/-- Error message for a non-2xx response (`fetchActivities.ts` line
152). -/
def httpErrMsg (status : Nat) (statusText url : String) : String :=
  "HTTP " ++ toString status ++ " " ++ statusText ++ " - URL: " ++ url

/-- The truncated payload preview (`fetchActivities.ts` line 158):
`JSON.stringify(...).slice(0, 500)`, embedded over the character list of
the stringified payload. -/
def previewOf (stringified : String) : String :=
  (stringified.toList.take 500).asString

/-- Error message for a non-array JSON body (`fetchActivities.ts` lines
159-163); the ellipsis is appended exactly when the preview was cut at 500
characters. -/
def nonArrayErrMsg (typeName stringified url : String) : String :=
  let dataPreview := previewOf stringified
  "Expected array page but received " ++ typeName ++ ".\nURL: " ++ url ++
    "\nResponse preview: " ++ dataPreview ++
    (if dataPreview.length = 500 then "..." else "")

/-- Embedding of `fetchPage` (`fetchActivities.ts` lines 136-167) as a
function of the requested URL and the transport outcome: `Except.error`
embeds a thrown exception.  The status check (`response.ok`) precedes the
body parse, so a non-2xx response errors with `httpErrMsg` regardless of
its body; on a 2xx response whose body is not valid JSON, the rejection
of `await response.json()` (line 155) propagates uncaught — the thrown
value is the engine `SyntaxError` itself, not a message built by the
source, so it carries neither the URL nor a payload preview. -/
def fetchPage (url : String) (outcome : FetchOutcome) :
    Except String (List Activity) :=
  match outcome with
  | .netError m => .error (netErrMsg m url)
  | .response status statusText body =>
    if ¬ (200 ≤ status ∧ status ≤ 299) then
      .error (httpErrMsg status statusText url)
    else
      match body with
      | .arr xs => .ok xs
      | .nonArray typeName stringified =>
        .error (nonArrayErrMsg typeName stringified url)
      | .invalidJson syntaxErrMsg => .error syntaxErrMsg

/-- Lower-casing of a string, character by character (the semantics of
`String.toLowerCase`), defined over the character list so that it is
structurally computable. -/
def lowerStr (s : String) : String :=
  (s.data.map Char.toLower).asString

/-- Whether the first character list starts with the second. -/
def charsStartWith : List Char → List Char → Bool
  | _, [] => true
  | [], _ :: _ => false
  | c :: cs, p :: ps => c == p && charsStartWith cs ps

/-- Whether `pat` occurs as a contiguous substring of the character list
(the semantics of JavaScript `String.prototype.includes`). -/
def charsContain (pat : List Char) : List Char → Bool
  | [] => charsStartWith [] pat
  | c :: rest => charsStartWith (c :: rest) pat || charsContain pat rest

/-- Embedding of `isDiagnostic` (`src/types/mathacademy.ts` lines
138-150): diagnostic-like types, unless the associated test name contains
"quiz" (case-insensitively). -/
def isDiagnostic (activity : Activity) : Bool :=
  let type := lowerStr activity.type
  let taskName := (activity.test.bind (fun t => t.name)).getD ""
  let isQuiz : Bool := charsContain "quiz".data (lowerStr taskName).data
  !isQuiz &&
    (type == "diagnostic" || type == "assessment" ||
     type == "supplemental diagnostic" || type == "placement" ||
     type == "supplemental")

/-- XP counted as earned for one activity in the daily aggregation and the
attainment rate (`mathacademy.ts` lines 183-193 and 240-249):
`pointsAwarded || 0` in every branch. -/
def earnedXP (activity : Activity) : Int :=
  jsOrInt activity.pointsAwarded 0

/-- XP counted as possible for one activity (`mathacademy.ts` lines
183-193 and 240-249): a diagnostic-like activity contributes its awarded
XP, any other contributes `points || 10`. -/
def possibleXP (activity : Activity) : Int :=
  if isDiagnostic activity then jsOrInt activity.pointsAwarded 0
  else jsOrInt activity.points 10

/-- One per-day bucket of the daily aggregation (`DailyData` in
`src/types/mathacademy.ts` lines 106-112). -/
structure DailyData where
  date : String
  xp : Int
  count : Nat
  totalPossible : Int
  totalEarned : Int
deriving DecidableEq, Repr

/-- Update of the `dailyGroups` object for one activity
(`mathacademy.ts` lines 170-196): find the bucket with the activity's date
key (creating it at the end of insertion order if absent) and accumulate
xp, count and the earned/possible pair. -/
def bumpDay (groups : List DailyData) (key : String) (x e p : Int) :
    List DailyData :=
  match groups with
  | [] => [{ date := key, xp := x, count := 1, totalPossible := p, totalEarned := e }]
  | d :: rest =>
    if d.date = key then
      { d with xp := d.xp + x, count := d.count + 1,
               totalPossible := d.totalPossible + p,
               totalEarned := d.totalEarned + e } :: rest
    else
      d :: bumpDay rest key x e p

/-- The insertion-ordered bucket list built by the `forEach` of
`groupActivitiesByDay` (`mathacademy.ts` lines 163-197).  `dayOf` is the
ambient date-bucketing function `toLocalDateString(new
Date(activity.completed))`, which depends on the environment's local
timezone and is therefore passed explicitly. -/
def groupCore (dayOf : Activity → String) (activities : List Activity) :
    List DailyData :=
  activities.foldl
    (fun groups a => bumpDay groups (dayOf a) (earnedXP a) (earnedXP a) (possibleXP a))
    []

/-- Embedding of `groupActivitiesByDay` (`mathacademy.ts` lines 163-202):
the buckets sorted ascending by the date value of their key.  `dateMs` is
the ambient `new Date(dateKey).getTime()` evaluation, passed explicitly
like `dayOf`. -/
def groupActivitiesByDay (dayOf : Activity → String) (dateMs : String → Int)
    (activities : List Activity) : List DailyData :=
  (groupCore dayOf activities).insertionSort (fun a b => dateMs a.date ≤ dateMs b.date)

/-- Embedding of `calculateXPAttainment` (`mathacademy.ts` lines 236-252):
the percentage of possible XP achieved, `Math.round((e/p)*1000)/10` when
any XP was possible and `0` otherwise.  JavaScript's `Math.round` is
`⌊x + 1/2⌋`, which is Mathlib's `round` on `ℚ`. -/
def calculateXPAttainment (activities : List Activity) : ℚ :=
  let totalEarned : Int := (activities.map earnedXP).sum
  let totalPossible : Int := (activities.map possibleXP).sum
  if totalPossible > 0 then
    ((round (((totalEarned : ℚ) / (totalPossible : ℚ)) * 1000) : ℤ) : ℚ) / 10
  else 0

/-- The 7-day trailing window ending at index `i` of the daily list
(`chart-data.ts` lines 136-137): `dailyData.slice(max(0, i-6), i+1)`. -/
def rollingWindow (dailyData : List DailyData) (i : Nat) : List DailyData :=
  (dailyData.drop (i - 6)).take (i + 1 - (i - 6))

/-- The rolling attainment value for one window (`chart-data.ts` lines
139-141): `Math.round((earned/possible)*100)` when any XP was possible in
the window, `0` otherwise. -/
def windowAttainment (window : List DailyData) : ℚ :=
  let totalEarned : Int := (window.map (fun d => d.totalEarned)).sum
  let totalPossible : Int := (window.map (fun d => d.totalPossible)).sum
  if totalPossible > 0 then
    ((round (((totalEarned : ℚ) / (totalPossible : ℚ)) * 100) : ℤ) : ℚ)
  else 0

/-- The values series of `getSuccessRateOverTimeData` (`chart-data.ts`
lines 124-149): the 7-day rolling attainment, one value per day of the
daily aggregation.  (The empty-input early return yields an empty series,
which the `List.range` of an empty list reproduces.) -/
def getSuccessRateValues (dayOf : Activity → String) (dateMs : String → Int)
    (activities : List Activity) : List ℚ :=
  let dailyData := groupActivitiesByDay dayOf dateMs activities
  (List.range dailyData.length).map
    (fun i => windowAttainment (rollingWindow dailyData i))

/-- The raw `frontier` flag of a knowledge-graph topic
(`src/types/mathacademy.ts` line 76: `number | boolean | string`, possibly
absent). -/
inductive FrontierFlag where
  | num (q : ℚ)
  | boolVal (b : Bool)
  | str (s : String)
  | absent
deriving DecidableEq, Repr

/-- Embedding of the knowledge-graph topic record (`FrontierTopic` in
`src/types/mathacademy.ts` lines 72-79).  `id` is embedded post
`Number(t.id)` coercion; `repetitions`/`repetition` hold the numeric
values `toNum` would produce, `none` when absent. -/
structure FrontierTopic where
  id : Int
  name : String
  prerequisites : Option (List Int)
  frontier : FrontierFlag
  repetitions : Option ℚ
  repetition : Option ℚ
deriving DecidableEq, Repr

/-- Embedding of `isFrontier` (`fetchFrontierTopics.ts` lines 30-32): the
flag must be strictly (`===`) the number 1, the boolean true, or the
string "1"; nothing else counts. -/
def isFrontier (t : FrontierTopic) : Bool :=
  match t.frontier with
  | .num q => q == 1
  | .boolVal b => b == true
  | .str s => s == "1"
  | .absent => false

/-- Embedding of `getReps` (`fetchFrontierTopics.ts` lines 14-17): `null`
for a missing topic, otherwise `toNum(repetitions ?? repetition)`. -/
def getReps (obj : Option FrontierTopic) : Option ℚ :=
  obj.bind (fun o => o.repetitions.orElse (fun _ => o.repetition))

/-- Embedding of `median` (`fetchFrontierTopics.ts` lines 19-24): `null`
on the empty list; otherwise sort ascending and take the middle element,
or the mean of the two middle elements for even length. -/
def medianQ (arr : List ℚ) : Option ℚ :=
  if arr.length = 0 then none
  else
    let s := arr.insertionSort (fun a b : ℚ => a ≤ b)
    let m := s.length / 2
    if s.length % 2 = 1 then some (s.getD m 0)
    else some ((s.getD (m - 1) 0 + s.getD m 0) / 2)

/-- Embedding of `mean` (`fetchFrontierTopics.ts` lines 26-28). -/
def meanQ (arr : List ℚ) : Option ℚ :=
  if arr.length = 0 then none else some (arr.sum / arr.length)

/-- Statistics over the resolved prerequisites' repetition values
(`FrontierTopicStats` in `src/types/mathacademy.ts` lines 85-90). -/
structure FrontierTopicStats where
  min : Option ℚ
  max : Option ℚ
  median : Option ℚ
  mean : Option ℚ
deriving DecidableEq, Repr

/-- Embedding of the enriched frontier topic record
(`EnrichedFrontierTopic` in `src/types/mathacademy.ts` lines 92-99).
The source's `sortKey : number` uses `-Infinity` for incomplete data; the
embedding uses `none` as the bottom element, compared by `sortKeyLE`. -/
structure EnrichedFrontierTopic where
  topic : FrontierTopic
  prereqIds : List Int
  prereqTopics : List (Option FrontierTopic)
  repVals : List ℚ
  stats : FrontierTopicStats
  sortKey : Option ℚ
deriving DecidableEq, Repr

/-- The topic table lookup (`fetchFrontierTopics.ts` line 54): `new
Map(topics.map(t => [Number(t.id), t]))` — on duplicate ids the later
entry wins, which the left fold reproduces. -/
def byIdGet (topics : List FrontierTopic) (i : Int) : Option FrontierTopic :=
  topics.foldl (fun acc t => if t.id = i then some t else acc) none

/-- Enrichment of one frontier topic (`fetchFrontierTopics.ts` lines
74-95): resolve prerequisite ids against the full table (missing ids give
`null` entries), collect the resolvable repetition values, compute the
stats, and derive the sort key as the average of median and min, or
`-Infinity` (here `none`) when either is unavailable. -/
def enrichTopic (topics : List FrontierTopic) (t : FrontierTopic) :
    EnrichedFrontierTopic :=
  let prereqIds := t.prerequisites.getD []
  let prereqTopics := prereqIds.map (byIdGet topics)
  let repVals := prereqTopics.filterMap getReps
  let stats : FrontierTopicStats :=
    { min := repVals.min?, max := repVals.max?,
      median := medianQ repVals, mean := meanQ repVals }
  let sortKey : Option ℚ :=
    match stats.median, stats.min with
    | some md, some mn => some ((md + mn) / 2)
    | _, _ => none
  { topic := t, prereqIds := prereqIds, prereqTopics := prereqTopics,
    repVals := repVals, stats := stats, sortKey := sortKey }

/-- Order on sort keys with `none` as `-Infinity` (the bottom element). -/
def sortKeyLE (x y : Option ℚ) : Bool :=
  match x, y with
  | none, _ => true
  | some _, none => false
  | some a, some b => a ≤ b

/-- The comparator order of the frontier ranking: `a` may precede `b` when
the source comparator `b.sortKey - a.sortKey` is non-positive. -/
def enrichedKeyGE (a b : EnrichedFrontierTopic) : Prop :=
  sortKeyLE b.sortKey a.sortKey = true

instance : DecidableRel enrichedKeyGE :=
  fun a b => inferInstanceAs (Decidable (sortKeyLE b.sortKey a.sortKey = true))

instance : IsTotal EnrichedFrontierTopic enrichedKeyGE :=
  ⟨fun a b => by
    unfold enrichedKeyGE
    cases b.sortKey <;> cases a.sortKey <;> simp [sortKeyLE]
    exact le_total _ _⟩

instance : IsTrans EnrichedFrontierTopic enrichedKeyGE :=
  ⟨fun a b c hab hbc => by
    unfold enrichedKeyGE at hab hbc ⊢
    revert hab hbc
    cases a.sortKey <;> cases b.sortKey <;> cases c.sortKey <;> simp [sortKeyLE]
    exact fun h1 h2 => le_trans h2 h1⟩

/-- The pure enrichment pipeline of `fetchFrontierTopics`
(`fetchFrontierTopics.ts` lines 51-100) applied to the topic table of the
knowledge-graph response (`Object.values(data.topics)`): filter to
frontier topics, enrich each against the full table, and sort descending
by sort key (the source's comparator `b.sortKey - a.sortKey`). -/
def enrichFrontier (topics : List FrontierTopic) : List EnrichedFrontierTopic :=
  ((topics.filter isFrontier).map (enrichTopic topics)).insertionSort enrichedKeyGE

/-- Two activities do not carry the same numeric id (an activity without a
numeric id constrains nothing). -/
def IdDistinct (a b : Activity) : Prop :=
  ∀ n : Int, a.id = some n → b.id ≠ some n

/-- No two elements of the list share a numeric id. -/
def NoDupIds (l : List Activity) : Prop :=
  l.Pairwise IdDistinct

/-- Invariant of the pagination loop: the accumulated fresh activities
have pairwise-distinct numeric ids, and every such id has been recorded
in the seen set. -/
def SeenInv (s : LoopState) : Prop :=
  NoDupIds s.newActs ∧ ∀ a ∈ s.newActs, ∀ n, a.id = some n → n ∈ s.seen

/-- Invariant of the merge fold (`fetchActivities.ts` lines 277-296): the
combined list has pairwise-distinct numeric ids, all recorded in the
accumulated id set. -/
def MergeInv (acc : List Activity × List Int) : Prop :=
  NoDupIds acc.1 ∧ ∀ a ∈ acc.1, ∀ n, a.id = some n → n ∈ acc.2

/-- The combined (merged, pre-filter) list of a fetch cycle
(`fetchActivities.ts` line 296), exposed for stating retention of
unresolvable-time records. -/
def fetchCycleCombined (srv : Int → List Activity) (wEnd : Int)
    (cached : List Activity) : Option (List Activity) :=
  let cachedActivities := getCachedActivities cached
  let wStart := wEnd - WINDOW_SPAN_MS
  let s0 : LoopState :=
    { cursor := wEnd, pages := 0, seen := idsOf cachedActivities,
      newActs := [], fetches := 0 }
  match runLoop srv wStart (MAX_PAGES + 3) s0 with
  | none => none
  | some s => some (mergePhase s.newActs cachedActivities)

/-- Concrete witness activities for the fetch-cycle claims: two cached
records, one fresh server record, and a server copy of a cached record
that must be deduplicated. -/
def actW1 : Activity :=
  { id := some 1, type := "lesson", points := some 10,
    pointsAwarded := some 5, completed := some (-1000), test := none }

def actW2 : Activity :=
  { id := some 2, type := "review", points := some 10,
    pointsAwarded := some 8, completed := some (-2000), test := none }

def actW3 : Activity :=
  { id := some 3, type := "lesson", points := some 10,
    pointsAwarded := some 9, completed := some (-5), test := none }

def actW1dup : Activity :=
  { id := some 1, type := "lesson", points := none,
    pointsAwarded := none, completed := some (-3), test := none }

/-- Witness server: one non-empty page at the initial cursor, empty
thereafter. -/
def srvW (c : Int) : List Activity :=
  if c = 0 then [actW1dup, actW3] else []


/-- Witness server for the idempotence claim: returns one already-cached
record at the initial cursor, nothing elsewhere. -/
def srvW2 (c : Int) : List Activity :=
  if c = 0 then [actW3] else []

/-- The number of empty-page backoff jumps still available before the
cursor crosses the window start: the measure that bounds the loop
iterations which do not advance the page counter. -/
def emptyBudget (ws c : Int) : Nat :=
  ((c - ws) / OVERLAP_MS + 1).toNat

/-- Adversarial server for the page-cap analysis: an empty page at the
initial cursor, then a one-item page (with a completed time just below
the cursor) everywhere else. -/
def srvCex (c : Int) : List Activity :=
  if c = 0 then []
  else [{ id := none, type := "lesson", points := none,
          pointsAwarded := none, completed := some (c - 1), test := none }]

/-- An over-earning activity: a non-diagnostic whose awarded XP exceeds
its base points. -/
def actOver : Activity :=
  { id := some 10, type := "lesson", points := some 10,
    pointsAwarded := some 20, completed := some 0, test := none }

/-- A well-behaved activity: a non-diagnostic earning half its base
points. -/
def actHalf : Activity :=
  { id := some 11, type := "lesson", points := some 10,
    pointsAwarded := some 5, completed := some 0, test := none }

/-- A diagnostic activity awarded 7 XP (the spec's example). -/
def actD7 : Activity :=
  { id := some 12, type := "diagnostic", points := some 100,
    pointsAwarded := some 7, completed := some 0, test := none }

/-- Ambient date-bucketing function for the aggregation witnesses. -/
def dayOfW : Activity → String := fun _ => "2024-01-01"

/-- Ambient date-value function for the aggregation witnesses. -/
def dateMsW : String → Int := fun _ => 0

/-- The earned/possible totals recorded for a given date key (0 when the
key has no bucket). -/
def dayTotals (g : List DailyData) (k : String) : Int × Int :=
  match g.find? (fun d => d.date == k) with
  | some d => (d.totalEarned, d.totalPossible)
  | none => (0, 0)

/-- The sort key of a frontier topic as the specification words it: the
average of the median and the minimum of the resolved prerequisites'
repetition values, or `-Infinity` (here `none`) when either is
unavailable. -/
def sortKeySpec (topics : List FrontierTopic) (t : FrontierTopic) : Option ℚ :=
  let repVals := ((t.prerequisites.getD []).map (byIdGet topics)).filterMap getReps
  match medianQ repVals, repVals.min? with
  | some md, some mn => some ((md + mn) / 2)
  | _, _ => none

/-- Witness knowledge graph: three prerequisite topics with repetition
values 3, 5 and 7; one frontier topic depending on all three; one
frontier topic whose sole prerequisite id resolves to nothing. -/
def topP11 : FrontierTopic :=
  { id := 11, name := "p11", prerequisites := none, frontier := .absent,
    repetitions := some 3, repetition := none }

def topP12 : FrontierTopic :=
  { id := 12, name := "p12", prerequisites := none, frontier := .num 0,
    repetitions := some 5, repetition := none }

def topP13 : FrontierTopic :=
  { id := 13, name := "p13", prerequisites := none, frontier := .str "0",
    repetitions := none, repetition := some 7 }

def topF1 : FrontierTopic :=
  { id := 1, name := "f1", prerequisites := some [11, 12, 13],
    frontier := .num 1, repetitions := none, repetition := none }

def topF2 : FrontierTopic :=
  { id := 2, name := "f2", prerequisites := some [99],
    frontier := .str "1", repetitions := none, repetition := none }

def topicsW : List FrontierTopic :=
  [topP11, topP12, topP13, topF1, topF2]

theorem idDistinct_symm {a b : Activity} (h : IdDistinct a b) : IdDistinct b a := by
  intro n hb ha
  exact h n ha hb

theorem dedupPage_seen_sub (page : List Activity) :
    ∀ seen, seen ⊆ (dedupPage seen page).1 := by
  induction page with
  | nil => intro seen; simp [dedupPage]
  | cons item rest ih =>
    intro seen
    simp only [dedupPage]
    cases h : item.id with
    | none => exact ih seen
    | some n =>
      by_cases hmem : n ∈ seen
      · simpa [hmem] using ih seen
      · simpa [hmem] using fun x hx => ih (n :: seen) (List.mem_cons_of_mem n hx)

theorem dedupPage_fresh (page : List Activity) :
    ∀ seen a, a ∈ (dedupPage seen page).2 →
      a ∈ page ∧ ∀ n, a.id = some n → n ∉ seen := by
  induction page with
  | nil => intro seen a ha; simp [dedupPage] at ha
  | cons item rest ih =>
    intro seen a ha
    simp only [dedupPage] at ha
    cases h : item.id with
    | none =>
      simp only [h] at ha
      rcases List.mem_cons.mp ha with rfl | ha
      · exact ⟨List.mem_cons_self _ _, by simp [h]⟩
      · obtain ⟨h1, h2⟩ := ih seen a ha
        exact ⟨List.mem_cons_of_mem _ h1, h2⟩
    | some n =>
      simp only [h] at ha
      by_cases hmem : n ∈ seen
      · simp only [if_pos hmem] at ha
        obtain ⟨h1, h2⟩ := ih seen a ha
        exact ⟨List.mem_cons_of_mem _ h1, h2⟩
      · simp only [if_neg hmem] at ha
        rcases List.mem_cons.mp ha with rfl | ha
        · refine ⟨List.mem_cons_self _ _, ?_⟩
          intro m hm
          rw [h] at hm
          cases hm
          exact hmem
        · obtain ⟨h1, h2⟩ := ih (n :: seen) a ha
          exact ⟨List.mem_cons_of_mem _ h1,
            fun m hm hs => h2 m hm (List.mem_cons_of_mem n hs)⟩

theorem dedupPage_fresh_ids (page : List Activity) :
    ∀ seen a n, a ∈ (dedupPage seen page).2 → a.id = some n →
      n ∈ (dedupPage seen page).1 := by
  induction page with
  | nil => intro seen a n ha; simp [dedupPage] at ha
  | cons item rest ih =>
    intro seen a n ha hid
    simp only [dedupPage]
    simp only [dedupPage] at ha
    cases h : item.id with
    | none =>
      simp only [h] at ha ⊢
      rcases List.mem_cons.mp ha with rfl | ha
      · rw [h] at hid; cases hid
      · exact ih seen a n ha hid
    | some m =>
      simp only [h] at ha ⊢
      by_cases hmem : m ∈ seen
      · simp only [if_pos hmem] at ha ⊢
        exact ih seen a n ha hid
      · simp only [if_neg hmem] at ha ⊢
        rcases List.mem_cons.mp ha with rfl | ha
        · rw [h] at hid
          cases hid
          exact dedupPage_seen_sub rest (n :: seen) (List.mem_cons_self n seen)
        · exact ih (m :: seen) a n ha hid

theorem dedupPage_nodup (page : List Activity) :
    ∀ seen, NoDupIds (dedupPage seen page).2 := by
  induction page with
  | nil => intro seen; simp [dedupPage, NoDupIds]
  | cons item rest ih =>
    intro seen
    simp only [dedupPage]
    cases h : item.id with
    | none =>
      refine List.Pairwise.cons ?_ (ih seen)
      intro b _ n hn
      rw [h] at hn
      cases hn
    | some n =>
      by_cases hmem : n ∈ seen
      · simpa [hmem] using ih seen
      · simp only [if_neg hmem]
        refine List.Pairwise.cons ?_ (ih (n :: seen))
        intro b hb m hm
        rw [h] at hm
        cases hm
        obtain ⟨_, h2⟩ := dedupPage_fresh rest (n :: seen) b hb
        intro hbid
        exact h2 n hbid (List.mem_cons_self n seen)

theorem pageStep_inv {s : LoopState} (page : List Activity) (hs : SeenInv s) :
    SeenInv (pageStep s page) := by
  obtain ⟨hnd, hids⟩ := hs
  constructor
  · refine List.pairwise_append.mpr ⟨hnd, dedupPage_nodup page s.seen, ?_⟩
    intro a ha b hb n han hbn
    obtain ⟨_, h2⟩ := dedupPage_fresh page s.seen b hb
    exact h2 n hbn (hids a ha n han)
  · intro a ha n han
    rcases List.mem_append.mp ha with ha | ha
    · exact dedupPage_seen_sub page s.seen (hids a ha n han)
    · exact dedupPage_fresh_ids page s.seen a n ha han

theorem runLoop_inv (srv : Int → List Activity) (ws : Int) :
    ∀ fuel s sf, runLoop srv ws fuel s = some sf → SeenInv s → SeenInv sf := by
  intro fuel
  induction fuel with
  | zero => intro s sf h; simp [runLoop] at h
  | succ n ih =>
    intro s sf h hs
    rw [runLoop] at h
    by_cases hp : s.pages < MAX_PAGES
    · rw [if_pos hp] at h
      by_cases hpg : srv s.cursor = []
      · rw [if_pos hpg] at h
        have hinv : SeenInv (emptyStep s) := hs
        by_cases h1 : (emptyStep s).cursor < ws
        · rw [if_pos h1] at h; cases h; exact hinv
        · rw [if_neg h1] at h
          by_cases h2 : (emptyStep s).cursor = s.cursor
          · rw [if_pos h2] at h; cases h; exact hinv
          · rw [if_neg h2] at h; exact ih _ _ h hinv
      · rw [if_neg hpg] at h
        have hinv : SeenInv (pageStep s (srv s.cursor)) := pageStep_inv _ hs
        by_cases h1 : (pageStep s (srv s.cursor)).cursor < ws
        · rw [if_pos h1] at h; cases h; exact hinv
        · rw [if_neg h1] at h
          by_cases h2 : (pageStep s (srv s.cursor)).cursor = s.cursor
          · rw [if_pos h2] at h; cases h; exact hinv
          · rw [if_neg h2] at h; exact ih _ _ h hinv
    · rw [if_neg hp] at h; cases h; exact hs

theorem sortActivities_perm (l : List Activity) : (sortActivities l).Perm l :=
  List.perm_insertionSort actTimeGE l

theorem mem_sortActivities {l : List Activity} {a : Activity} :
    a ∈ sortActivities l ↔ a ∈ l :=
  (sortActivities_perm l).mem_iff

theorem mergeStep_inv {acc : List Activity × List Int} (item : Activity)
    (h : MergeInv acc) : MergeInv (mergeStep acc item) := by
  obtain ⟨hnd, hids⟩ := h
  cases hid : item.id with
  | none =>
    simp only [mergeStep, hid]
    refine ⟨List.pairwise_append.mpr ⟨hnd, List.pairwise_singleton _ _, ?_⟩, ?_⟩
    · intro a _ b hb
      rcases List.mem_singleton.mp hb with rfl
      intro n _ hbn
      rw [hid] at hbn
      cases hbn
    · intro a ha n han
      rcases List.mem_append.mp ha with ha | ha
      · exact hids a ha n han
      · rcases List.mem_singleton.mp ha with rfl
        rw [hid] at han
        cases han
  | some m =>
    simp only [mergeStep, hid]
    by_cases hmem : m ∈ acc.2
    · simpa [hmem] using ⟨hnd, hids⟩
    · simp only [if_neg hmem]
      refine ⟨List.pairwise_append.mpr ⟨hnd, List.pairwise_singleton _ _, ?_⟩, ?_⟩
      · intro a ha b hb
        rcases List.mem_singleton.mp hb with rfl
        intro n han hbn
        rw [hid] at hbn
        cases hbn
        exact hmem (hids a ha m han)
      · intro a ha n han
        rcases List.mem_append.mp ha with ha | ha
        · exact List.mem_cons_of_mem m (hids a ha n han)
        · rcases List.mem_singleton.mp ha with rfl
          rw [hid] at han
          cases han
          exact List.mem_cons_self m acc.2

theorem mergeFold_inv (l : List Activity) :
    ∀ acc, MergeInv acc → MergeInv (l.foldl mergeStep acc) := by
  induction l with
  | nil => intro acc h; exact h
  | cons x rest ih => intro acc h; exact ih _ (mergeStep_inv x h)

theorem mergeStep_grow {acc : List Activity × List Int} (item : Activity) :
    acc.1 ⊆ (mergeStep acc item).1 := by
  unfold mergeStep
  cases item.id with
  | none => exact fun x hx => List.mem_append.mpr (Or.inl hx)
  | some m =>
    by_cases hmem : m ∈ acc.2
    · simp [hmem]
    · simp only [if_neg hmem]
      exact fun x hx => List.mem_append.mpr (Or.inl hx)

theorem mergeFold_grow (l : List Activity) :
    ∀ acc, acc.1 ⊆ (l.foldl mergeStep acc).1 := by
  induction l with
  | nil => intro acc; exact fun x hx => hx
  | cons x rest ih =>
    intro acc
    exact fun y hy => ih (mergeStep acc x) (mergeStep_grow x hy)

theorem mergeFold_src (l : List Activity) :
    ∀ acc x, x ∈ (l.foldl mergeStep acc).1 → x ∈ acc.1 ∨ x ∈ l := by
  induction l with
  | nil => intro acc x hx; exact Or.inl hx
  | cons item rest ih =>
    intro acc x hx
    rcases ih (mergeStep acc item) x hx with h | h
    · cases hid : item.id with
      | none =>
        simp only [mergeStep, hid] at h
        rcases List.mem_append.mp h with h | h
        · exact Or.inl h
        · rcases List.mem_singleton.mp h with rfl
          exact Or.inr (List.mem_cons_self _ _)
      | some m =>
        simp only [mergeStep, hid] at h
        by_cases hmem : m ∈ acc.2
        · rw [if_pos hmem] at h; exact Or.inl h
        · rw [if_neg hmem] at h
          rcases List.mem_append.mp h with h | h
          · exact Or.inl h
          · rcases List.mem_singleton.mp h with rfl
            exact Or.inr (List.mem_cons_self _ _)
    · exact Or.inr (List.mem_cons_of_mem _ h)

theorem mergeFold_cached_sub (l : List Activity) :
    ∀ acc, l.Pairwise IdDistinct →
      (∀ a ∈ l, ∀ n, a.id = some n → n ∉ acc.2) →
      ∀ x ∈ l, x ∈ (l.foldl mergeStep acc).1 := by
  induction l with
  | nil => intro acc _ _ x hx; cases hx
  | cons item rest ih =>
    intro acc hpw hfree x hx
    have hitem : x = item → x ∈ ((item :: rest).foldl mergeStep acc).1 := by
      intro rfl_eq
      subst rfl_eq
      have hin : x ∈ (mergeStep acc x).1 := by
        cases hid : x.id with
        | none =>
          simp only [mergeStep, hid]
          exact List.mem_append.mpr (Or.inr (List.mem_singleton.mpr rfl))
        | some m =>
          have hnm : m ∉ acc.2 := hfree x (List.mem_cons_self _ _) m hid
          simp only [mergeStep, hid, if_neg hnm]
          exact List.mem_append.mpr (Or.inr (List.mem_singleton.mpr rfl))
      exact mergeFold_grow rest (mergeStep acc x) hin
    rcases List.mem_cons.mp hx with rfl | hx2
    · exact hitem rfl
    · have hrest : ∀ a ∈ rest, ∀ n, a.id = some n → n ∉ (mergeStep acc item).2 := by
        intro a ha n han
        cases hid : item.id with
        | none =>
          simp only [mergeStep, hid]
          exact hfree a (List.mem_cons_of_mem _ ha) n han
        | some m =>
          by_cases hmem : m ∈ acc.2
          · simp only [mergeStep, hid, if_pos hmem]
            exact hfree a (List.mem_cons_of_mem _ ha) n han
          · simp only [mergeStep, hid, if_neg hmem]
            intro hc
            rcases List.mem_cons.mp hc with rfl | hc2
            · exact (List.rel_of_pairwise_cons hpw ha) n hid han
            · exact hfree a (List.mem_cons_of_mem _ ha) n han hc2
      exact ih (mergeStep acc item) hpw.of_cons hrest x hx2

theorem mergePhase_nodup {newActs : List Activity} (cached : List Activity)
    (h : NoDupIds newActs) : NoDupIds (mergePhase newActs cached) := by
  have hinv : MergeInv (newActs, idsOf newActs) := by
    refine ⟨h, ?_⟩
    intro a ha n han
    exact List.mem_filterMap.mpr ⟨a, ha, han⟩
  exact (mergeFold_inv cached _ hinv).1

theorem mergePhase_src {newActs cached : List Activity} {x : Activity}
    (hx : x ∈ mergePhase newActs cached) : x ∈ newActs ∨ x ∈ cached :=
  mergeFold_src cached (newActs, idsOf newActs) x hx

/-- Destructing a successful fetch cycle into its loop outcome and the
merge/filter/sort tail. -/
theorem fetchCycle_spec {srv : Int → List Activity} {wEnd : Int}
    {cached out : List Activity} (h : fetchCycle srv wEnd cached = some out) :
    ∃ s, runLoop srv (wEnd - WINDOW_SPAN_MS) (MAX_PAGES + 3)
        { cursor := wEnd, pages := 0, seen := idsOf (getCachedActivities cached),
          newActs := [], fetches := 0 } = some s ∧
      out = sortActivities
        ((mergePhase s.newActs (getCachedActivities cached)).filter
          (windowPred (wEnd - WINDOW_SPAN_MS) wEnd)) := by
  simp only [fetchCycle] at h
  split at h
  · cases h
  · rename_i s hs
    cases h
    exact ⟨s, hs, rfl⟩

/-- The final list of a successful fetch cycle has pairwise-distinct
numeric ids. -/
theorem fetchCycle_nodup {srv : Int → List Activity} {wEnd : Int}
    {cached out : List Activity} (h : fetchCycle srv wEnd cached = some out) :
    NoDupIds out := by
  obtain ⟨s, hrun, hout⟩ := fetchCycle_spec h
  have hinv : SeenInv s := by
    refine runLoop_inv _ _ _ _ _ hrun ?_
    exact ⟨List.Pairwise.nil, by intro a ha; cases ha⟩
  have hm : NoDupIds (mergePhase s.newActs (getCachedActivities cached)) :=
    mergePhase_nodup _ hinv.1
  have hf : NoDupIds ((mergePhase s.newActs (getCachedActivities cached)).filter
      (windowPred (wEnd - WINDOW_SPAN_MS) wEnd)) :=
    List.Pairwise.sublist (List.filter_sublist _) hm
  rw [hout]
  exact hf.perm (sortActivities_perm _).symm (fun h => idDistinct_symm h)

theorem timeKeyLE_trans (x y z : Option Int) (h1 : timeKeyLE x y = true)
    (h2 : timeKeyLE y z = true) : timeKeyLE x z = true := by
  cases x <;> cases y <;> cases z <;> simp [timeKeyLE] at * <;> omega

theorem timeKeyLE_total (x y : Option Int) :
    (timeKeyLE x y || timeKeyLE y x) = true := by
  cases x <;> cases y <;> simp [timeKeyLE] <;> omega

theorem sortActivities_pairwise (l : List Activity) :
    (sortActivities l).Pairwise actTimeGE :=
  List.sorted_insertionSort actTimeGE l

/-- C1.  For every final activity list produced by `fetchAllActivities`
(and thus for every cache payload it writes), no two elements share the
same numeric id: deduplication by id holds across pages within one fetch
and across the merge with previously cached items. -/
theorem fetchAllActivities_no_duplicate_ids (srv : Int → List Activity)
    (wEnd : Int) (cached out : List Activity)
    (h : fetchCycle srv wEnd cached = some out) : NoDupIds out :=
  fetchCycle_nodup h

theorem fetchAllActivities_no_duplicate_ids_witness :
    fetchCycle srvW 0 [actW1, actW2] = some [actW3, actW1, actW2] ∧
      NoDupIds [actW3, actW1, actW2] :=
  ⟨by decide,
   fetchAllActivities_no_duplicate_ids srvW 0 [actW1, actW2] _ (by decide)⟩

/-- C4.  In the final list returned by `fetchAllActivities`, every element
with a resolvable completed time has that time within
`[windowStart, windowEnd]` (the trailing 3-year window), and every element
of the combined pre-filter list whose completed time is absent or
unparsable passes the filter unconditionally and is retained in the final
list. -/
theorem fetchAllActivities_window_containment (srv : Int → List Activity)
    (wEnd : Int) (cached out : List Activity)
    (h : fetchCycle srv wEnd cached = some out) :
    (∀ a ∈ out, ∀ t, getItemTimeMs a = some t →
      wEnd - WINDOW_SPAN_MS ≤ t ∧ t ≤ wEnd) ∧
    (∀ comb, fetchCycleCombined srv wEnd cached = some comb →
      ∀ a ∈ comb, getItemTimeMs a = none → a ∈ out) := by
  obtain ⟨s, hrun, hout⟩ := fetchCycle_spec h
  constructor
  · intro a ha t ht
    rw [hout] at ha
    have ha2 := mem_sortActivities.mp ha
    have hp := List.of_mem_filter ha2
    simp only [windowPred, ht] at hp
    exact of_decide_eq_true hp
  · intro comb hcomb a ha hnone
    simp only [fetchCycleCombined] at hcomb
    rw [hrun] at hcomb
    cases hcomb
    rw [hout]
    refine mem_sortActivities.mpr (List.mem_filter.mpr ⟨ha, ?_⟩)
    simp [windowPred, hnone]

theorem fetchAllActivities_window_containment_witness :
    fetchCycle srvW 0 [actW1, actW2] = some [actW3, actW1, actW2] ∧
    ((∀ a ∈ [actW3, actW1, actW2], ∀ t, getItemTimeMs a = some t →
        0 - WINDOW_SPAN_MS ≤ t ∧ t ≤ 0) ∧
     (∀ comb, fetchCycleCombined srvW 0 [actW1, actW2] = some comb →
        ∀ a ∈ comb, getItemTimeMs a = none → a ∈ [actW3, actW1, actW2])) :=
  ⟨by decide,
   fetchAllActivities_window_containment srvW 0 [actW1, actW2] _ (by decide)⟩

/-- C5.  The final list returned by `fetchAllActivities` is sorted in
descending order of best-known completed time; a record with no
resolvable completed time is treated as `-Infinity` and therefore sorts
after every record with a resolvable time. -/
theorem fetchAllActivities_sorted_descending (srv : Int → List Activity)
    (wEnd : Int) (cached out : List Activity)
    (h : fetchCycle srv wEnd cached = some out) :
    out.Pairwise (fun a b => timeKeyLE (bestTime b) (bestTime a) = true ∧
      (bestTime a = none → bestTime b = none)) := by
  obtain ⟨s, hrun, hout⟩ := fetchCycle_spec h
  rw [hout]
  refine (sortActivities_pairwise _).imp ?_
  intro a b hab
  refine ⟨hab, ?_⟩
  intro hna
  cases hb : bestTime b with
  | none => rfl
  | some v =>
    unfold actTimeGE at hab
    rw [hna, hb] at hab
    simp [timeKeyLE] at hab

theorem fetchAllActivities_sorted_descending_witness :
    fetchCycle srvW 0 [actW1, actW2] = some [actW3, actW1, actW2] ∧
    List.Pairwise (fun a b => timeKeyLE (bestTime b) (bestTime a) = true ∧
      (bestTime a = none → bestTime b = none)) [actW3, actW1, actW2] :=
  ⟨by decide,
   fetchAllActivities_sorted_descending srvW 0 [actW1, actW2] _ (by decide)⟩

theorem runLoop_seen_mono (srv : Int → List Activity) (ws : Int) :
    ∀ fuel s sf, runLoop srv ws fuel s = some sf → s.seen ⊆ sf.seen := by
  intro fuel
  induction fuel with
  | zero => intro s sf h; simp [runLoop] at h
  | succ n ih =>
    intro s sf h
    rw [runLoop] at h
    by_cases hp : s.pages < MAX_PAGES
    · rw [if_pos hp] at h
      by_cases hpg : srv s.cursor = []
      · rw [if_pos hpg] at h
        by_cases h1 : (emptyStep s).cursor < ws
        · rw [if_pos h1] at h; cases h; exact fun x hx => hx
        · rw [if_neg h1] at h
          by_cases h2 : (emptyStep s).cursor = s.cursor
          · rw [if_pos h2] at h; cases h; exact fun x hx => hx
          · rw [if_neg h2] at h; exact ih (emptyStep s) _ h
      · rw [if_neg hpg] at h
        have hsub : s.seen ⊆ (pageStep s (srv s.cursor)).seen :=
          dedupPage_seen_sub (srv s.cursor) s.seen
        by_cases h1 : (pageStep s (srv s.cursor)).cursor < ws
        · rw [if_pos h1] at h; cases h; exact hsub
        · rw [if_neg h1] at h
          by_cases h2 : (pageStep s (srv s.cursor)).cursor = s.cursor
          · rw [if_pos h2] at h; cases h; exact hsub
          · rw [if_neg h2] at h
            exact fun x hx => ih _ _ h (hsub hx)
    · rw [if_neg hp] at h; cases h; exact fun x hx => hx

theorem runLoop_newActs_sub (srv : Int → List Activity) (ws : Int)
    (O1 : List Activity) (hsrv : ∀ c a, a ∈ srv c → a ∈ O1) :
    ∀ fuel s sf, runLoop srv ws fuel s = some sf →
      (∀ n, n ∈ idsOf O1 → n ∈ s.seen) →
      ∀ a ∈ sf.newActs, a ∈ s.newActs ∨ (a ∈ O1 ∧ a.id = none) := by
  intro fuel
  induction fuel with
  | zero => intro s sf h; simp [runLoop] at h
  | succ n ih =>
    intro s sf h hseen a ha
    rw [runLoop] at h
    by_cases hp : s.pages < MAX_PAGES
    · rw [if_pos hp] at h
      by_cases hpg : srv s.cursor = []
      · rw [if_pos hpg] at h
        by_cases h1 : (emptyStep s).cursor < ws
        · rw [if_pos h1] at h; cases h; exact Or.inl ha
        · rw [if_neg h1] at h
          by_cases h2 : (emptyStep s).cursor = s.cursor
          · rw [if_pos h2] at h; cases h; exact Or.inl ha
          · rw [if_neg h2] at h
            exact ih _ _ h hseen a ha
      · rw [if_neg hpg] at h
        have hfresh : ∀ b ∈ (dedupPage s.seen (srv s.cursor)).2,
            b ∈ O1 ∧ b.id = none := by
          intro b hb
          obtain ⟨hpg2, hfree⟩ := dedupPage_fresh (srv s.cursor) s.seen b hb
          have hO1 : b ∈ O1 := hsrv _ b hpg2
          refine ⟨hO1, ?_⟩
          cases hid : b.id with
          | none => rfl
          | some m =>
            exact absurd (hseen m (List.mem_filterMap.mpr ⟨b, hO1, hid⟩))
              (hfree m hid)
        have hsplit : ∀ x, x ∈ (pageStep s (srv s.cursor)).newActs →
            x ∈ s.newActs ∨ (x ∈ O1 ∧ x.id = none) := by
          intro x hx
          rcases List.mem_append.mp hx with hx | hx
          · exact Or.inl hx
          · exact Or.inr (hfresh x hx)
        by_cases h1 : (pageStep s (srv s.cursor)).cursor < ws
        · rw [if_pos h1] at h; cases h; exact hsplit a ha
        · rw [if_neg h1] at h
          by_cases h2 : (pageStep s (srv s.cursor)).cursor = s.cursor
          · rw [if_pos h2] at h; cases h; exact hsplit a ha
          · rw [if_neg h2] at h
            have hseen2 : ∀ m, m ∈ idsOf O1 → m ∈ (pageStep s (srv s.cursor)).seen :=
              fun m hm => dedupPage_seen_sub (srv s.cursor) s.seen (hseen m hm)
            rcases ih _ _ h hseen2 a ha with hx | hx
            · exact hsplit a hx
            · exact Or.inr hx
    · rw [if_neg hp] at h; cases h; exact Or.inl ha

theorem fetchCycle_mem_pass {srv : Int → List Activity} {wEnd : Int}
    {cached out : List Activity} (h : fetchCycle srv wEnd cached = some out) :
    ∀ x ∈ out, windowPred (wEnd - WINDOW_SPAN_MS) wEnd x = true := by
  obtain ⟨s, hrun, hout⟩ := fetchCycle_spec h
  rw [hout]
  intro x hx
  exact List.of_mem_filter (mem_sortActivities.mp hx)

/-- C2.  Running the fetch cycle twice in succession, with the remote API
returning (on the second run) no records beyond those already cached,
yields a cache whose content as a set of activities is identical to the
cache after running it once. -/
theorem fetch_cycle_idempotent (srv1 srv2 : Int → List Activity)
    (wEnd : Int) (cached O1 O2 : List Activity)
    (h1 : fetchCycle srv1 wEnd cached = some O1)
    (hsrv : ∀ c a, a ∈ srv2 c → a ∈ O1)
    (h2 : fetchCycle srv2 wEnd O1 = some O2) :
    ∀ x, x ∈ O2 ↔ x ∈ O1 := by
  obtain ⟨s, hrun, hout⟩ := fetchCycle_spec h2
  have hcachedmem : ∀ x : Activity, x ∈ getCachedActivities O1 ↔ x ∈ O1 :=
    fun x => mem_sortActivities
  have hnd1 : NoDupIds O1 := fetchCycle_nodup h1
  have hpass1 := fetchCycle_mem_pass h1
  have hseen0 : ∀ n, n ∈ idsOf O1 → n ∈ idsOf (getCachedActivities O1) := by
    intro n hn
    rcases List.mem_filterMap.mp hn with ⟨a, ha, hid⟩
    exact List.mem_filterMap.mpr ⟨a, (hcachedmem a).mpr ha, hid⟩
  have hnew : ∀ a ∈ s.newActs, a ∈ O1 ∧ a.id = none := by
    intro a ha
    rcases runLoop_newActs_sub srv2 _ O1 hsrv _ _ _ hrun hseen0 a ha with hx | hx
    · cases hx
    · exact hx
  have hids_nil : idsOf s.newActs = [] := by
    rw [idsOf, List.filterMap_eq_nil]
    intro a ha
    exact (hnew a ha).2
  have hcomb_sub : ∀ x ∈ mergePhase s.newActs (getCachedActivities O1), x ∈ O1 := by
    intro x hx
    rcases mergePhase_src hx with hx | hx
    · exact (hnew x hx).1
    · exact (hcachedmem x).mp hx
  have hcomb_sup : ∀ x ∈ O1, x ∈ mergePhase s.newActs (getCachedActivities O1) := by
    intro x hx
    refine mergeFold_cached_sub (getCachedActivities O1)
      (s.newActs, idsOf s.newActs) ?_ ?_ x ((hcachedmem x).mpr hx)
    · exact hnd1.perm (sortActivities_perm O1).symm (fun h => idDistinct_symm h)
    · intro a _ n _ hmem
      rw [hids_nil] at hmem
      cases hmem
  intro x
  rw [hout, mem_sortActivities, List.mem_filter]
  constructor
  · rintro ⟨hxc, _⟩
    exact hcomb_sub x hxc
  · intro hx
    exact ⟨hcomb_sup x hx, hpass1 x hx⟩

theorem fetch_cycle_idempotent_witness :
    fetchCycle srvW 0 [actW1, actW2] = some [actW3, actW1, actW2] ∧
    fetchCycle srvW2 0 [actW3, actW1, actW2] = some [actW3, actW1, actW2] ∧
    (∀ x, x ∈ [actW3, actW1, actW2] ↔ x ∈ [actW3, actW1, actW2]) :=
  ⟨by decide, by decide,
   fetch_cycle_idempotent srvW srvW2 0 [actW1, actW2] _ _ (by decide)
     (by
       intro c a ha
       simp only [srvW2] at ha
       split at ha
       · rcases List.mem_singleton.mp ha with rfl
         exact List.mem_cons_self _ _
       · cases ha)
     (by decide)⟩

theorem nextCursor_lt (c : Int) (page : List Activity) :
    nextCursor c page < c := by
  unfold nextCursor
  split
  · rename_i oldest hold
    by_cases h : ¬ (oldest - LEAD_MS < c)
    · rw [if_pos h]
      unfold OVERLAP_MS
      omega
    · rw [if_neg h]
      exact not_not.mp (fun hc => h hc)
  · unfold OVERLAP_MS
    omega

theorem emptyBudget_mono (ws : Int) {c c2 : Int} (h : c2 ≤ c) :
    emptyBudget ws c2 ≤ emptyBudget ws c := by
  unfold emptyBudget OVERLAP_MS
  omega

theorem emptyBudget_decr (ws c : Int) (h : ws ≤ c - OVERLAP_MS) :
    emptyBudget ws (c - OVERLAP_MS) < emptyBudget ws c := by
  unfold emptyBudget OVERLAP_MS at *
  omega

theorem runLoop_term (srv : Int → List Activity) (ws : Int) :
    ∀ fuel s, s.pages ≤ MAX_PAGES →
      (MAX_PAGES - s.pages) + emptyBudget ws s.cursor < fuel →
      ∃ sf, runLoop srv ws fuel s = some sf ∧
        sf.fetches ≤ s.fetches + ((MAX_PAGES - s.pages) + emptyBudget ws s.cursor) ∧
        sf.pages ≤ MAX_PAGES := by
  intro fuel
  induction fuel with
  | zero => intro s _ hm; omega
  | succ n ih =>
    intro s hpages hm
    rw [runLoop]
    by_cases hp : s.pages < MAX_PAGES
    · rw [if_pos hp]
      by_cases hpg : srv s.cursor = []
      · rw [if_pos hpg]
        have hfe : (emptyStep s).fetches = s.fetches + 1 := rfl
        have hpa : (emptyStep s).pages = s.pages := rfl
        have hcu : (emptyStep s).cursor = s.cursor - OVERLAP_MS := rfl
        by_cases h1 : (emptyStep s).cursor < ws
        · rw [if_pos h1]
          exact ⟨emptyStep s, rfl, by omega, by omega⟩
        · rw [if_neg h1]
          by_cases h2 : (emptyStep s).cursor = s.cursor
          · rw [if_pos h2]
            exact ⟨emptyStep s, rfl, by omega, by omega⟩
          · rw [if_neg h2]
            have hws : ws ≤ s.cursor - OVERLAP_MS := by
              rw [hcu] at h1
              omega
            have hb : emptyBudget ws (s.cursor - OVERLAP_MS) < emptyBudget ws s.cursor :=
              emptyBudget_decr ws s.cursor hws
            obtain ⟨sf, hsf, hfet, hpg2⟩ := ih (emptyStep s) (by omega)
              (by rw [hpa, hcu]; omega)
            refine ⟨sf, hsf, ?_, hpg2⟩
            rw [hfe, hpa, hcu] at hfet
            omega
      · rw [if_neg hpg]
        have hfe : (pageStep s (srv s.cursor)).fetches = s.fetches + 1 := rfl
        have hpa : (pageStep s (srv s.cursor)).pages = s.pages + 1 := rfl
        have hcu : (pageStep s (srv s.cursor)).cursor =
            nextCursor s.cursor (srv s.cursor) := rfl
        have hlt : nextCursor s.cursor (srv s.cursor) < s.cursor :=
          nextCursor_lt s.cursor (srv s.cursor)
        have hbm : emptyBudget ws (nextCursor s.cursor (srv s.cursor)) ≤
            emptyBudget ws s.cursor := emptyBudget_mono ws (le_of_lt hlt)
        by_cases h1 : (pageStep s (srv s.cursor)).cursor < ws
        · rw [if_pos h1]
          exact ⟨pageStep s (srv s.cursor), rfl, by omega, by omega⟩
        · rw [if_neg h1]
          by_cases h2 : (pageStep s (srv s.cursor)).cursor = s.cursor
          · rw [if_pos h2]
            exact ⟨pageStep s (srv s.cursor), rfl, by omega, by omega⟩
          · rw [if_neg h2]
            obtain ⟨sf, hsf, hfet, hpg2⟩ := ih (pageStep s (srv s.cursor))
              (by omega) (by rw [hpa, hcu]; omega)
            refine ⟨sf, hsf, ?_, hpg2⟩
            rw [hfe, hpa, hcu] at hfet
            omega
    · rw [if_neg hp]
      exact ⟨s, rfl, by omega, hpages⟩

theorem emptyBudget_start (wEnd : Int) :
    emptyBudget (wEnd - WINDOW_SPAN_MS) wEnd = 2 := by
  unfold emptyBudget WINDOW_SPAN_MS OVERLAP_MS
  omega

theorem unparsable_page_backoff (c : Int) (page : List Activity)
    (h : ∀ a ∈ page, getItemTimeMs a = none) :
    nextCursor c page = c - OVERLAP_MS := by
  have hnil : page.filterMap getItemTimeMs = [] :=
    List.filterMap_eq_nil_iff.mpr h
  unfold nextCursor
  rw [hnil]
  rfl

/-- C3 (amended).  The pagination loop of `fetchAllActivities` always
terminates: the number of non-empty pages processed is capped at 200
(`MAX_PAGES`), and the total number of page fetches is capped at 202 —
empty pages do not advance the page counter, but at most two extra
empty-page fetches can occur before the 1000-day backoff jumps the cursor
across the window start.  A page whose items all have unparsable
completed timestamps triggers the fixed 1000-day backoff jump rather
than an infinite loop, and the loop stops when the cursor crosses the
window start or fails to change. -/
theorem fetch_pagination_terminates (srv : Int → List Activity)
    (wEnd : Int) (cached : List Activity) :
    (∃ fc pc, fetchCycleCalls srv wEnd cached = some (fc, pc) ∧
      fc ≤ MAX_PAGES + 2 ∧ pc ≤ MAX_PAGES) ∧
    (∃ out, fetchCycle srv wEnd cached = some out) ∧
    (∀ c page, (∀ a ∈ page, getItemTimeMs a = none) →
      nextCursor c page = c - OVERLAP_MS) := by
  have hstart := emptyBudget_start wEnd
  obtain ⟨sf, hrun, hfet, hpg⟩ :=
    runLoop_term srv (wEnd - WINDOW_SPAN_MS) (MAX_PAGES + 3)
      { cursor := wEnd, pages := 0, seen := idsOf (getCachedActivities cached),
        newActs := [], fetches := 0 }
      (by simp) (by simp only []; rw [hstart]; omega)
  refine ⟨⟨sf.fetches, sf.pages, ?_, ?_, hpg⟩, ⟨?_, ?_⟩, unparsable_page_backoff⟩
  · simp only [fetchCycleCalls]
    rw [hrun]
  · simp only at hfet
    rw [hstart] at hfet
    omega
  · exact sortActivities ((mergePhase sf.newActs (getCachedActivities cached)).filter
      (windowPred (wEnd - WINDOW_SPAN_MS) wEnd))
  · simp only [fetchCycle]
    rw [hrun]

theorem fetch_pagination_terminates_witness :
    (∃ fc pc, fetchCycleCalls srvW 0 [] = some (fc, pc) ∧
      fc ≤ MAX_PAGES + 2 ∧ pc ≤ MAX_PAGES) ∧
    (∃ out, fetchCycle srvW 0 [] = some out) ∧
    (∀ c page, (∀ a ∈ page, getItemTimeMs a = none) →
      nextCursor c page = c - OVERLAP_MS) :=
  fetch_pagination_terminates srvW 0 []

set_option maxRecDepth 40000 in
/-- Counterexample to the literal 200-fetch cap: with an empty first page
followed by always-fresh single-item pages, the loop performs 201 page
fetches (200 of them non-empty) in one cycle. -/
theorem fetch_page_cap_counterexample :
    fetchCycleCalls srvCex 0 [] = some (201, 200) ∧ ¬ (201 ≤ 200) :=
  ⟨by decide, by decide⟩

theorem dayTotals_bumpDay (g : List DailyData) (key k : String) (x e p : Int) :
    dayTotals (bumpDay g key x e p) k =
      if key = k then ((dayTotals g k).1 + e, (dayTotals g k).2 + p)
      else dayTotals g k := by
  induction g with
  | nil =>
    by_cases h : key = k
    · have hb : (key == k) = true := beq_iff_eq.mpr h
      simp [bumpDay, dayTotals, List.find?, hb, h]
    · have hb : (key == k) = false := beq_eq_false_iff_ne.mpr h
      simp [bumpDay, dayTotals, List.find?, hb, h]
  | cons d rest ih =>
    by_cases hd : d.date = key
    · by_cases hk : key = k
      · subst hk
        simp [bumpDay, dayTotals, List.find?, hd]
      · have hkb : (key == k) = false := beq_eq_false_iff_ne.mpr hk
        simp [bumpDay, dayTotals, List.find?, hd, hkb, hk]
    · by_cases hdk : d.date = k
      · have hk : ¬ key = k := by
          intro hc
          exact hd (by rw [hdk, ← hc])
        have hb2 : (d.date == k) = true := beq_iff_eq.mpr hdk
        simp only [bumpDay, if_neg hd, if_neg hk, dayTotals, List.find?, hb2]
      · have hb : (d.date == k) = false := beq_eq_false_iff_ne.mpr hdk
        simp only [bumpDay, if_neg hd, dayTotals, List.find?, hb]
        simpa [dayTotals] using ih

theorem dayTotals_groupFold (dayOf : Activity → String) (acts : List Activity) :
    ∀ g k, dayTotals (acts.foldl
        (fun groups a => bumpDay groups (dayOf a) (earnedXP a) (earnedXP a) (possibleXP a)) g) k =
      ((dayTotals g k).1 + ((acts.filter (fun a => dayOf a == k)).map earnedXP).sum,
       (dayTotals g k).2 + ((acts.filter (fun a => dayOf a == k)).map possibleXP).sum) := by
  induction acts with
  | nil => intro g k; simp
  | cons a rest ih =>
    intro g k
    simp only [List.foldl_cons]
    rw [ih, dayTotals_bumpDay]
    by_cases h : dayOf a = k
    · have hb : (dayOf a == k) = true := beq_iff_eq.mpr h
      rw [if_pos h,
        show List.filter (fun a => dayOf a == k) (a :: rest) =
          a :: List.filter (fun a => dayOf a == k) rest from
          List.filter_cons_of_pos hb]
      simp only [List.map_cons, List.sum_cons, Prod.mk.injEq]
      constructor <;> omega
    · have hb : (dayOf a == k) = false := beq_eq_false_iff_ne.mpr h
      rw [if_neg h,
        show List.filter (fun a => dayOf a == k) (a :: rest) =
          List.filter (fun a => dayOf a == k) rest from
          List.filter_cons_of_neg (by simp [hb])]

theorem bumpDay_keys (g : List DailyData) (key : String) (x e p : Int) :
    (bumpDay g key x e p).map (fun d => d.date) =
      if key ∈ g.map (fun d => d.date) then g.map (fun d => d.date)
      else g.map (fun d => d.date) ++ [key] := by
  induction g with
  | nil => simp [bumpDay]
  | cons d rest ih =>
    by_cases hd : d.date = key
    · simp [bumpDay, hd]
    · simp only [bumpDay, if_neg hd, List.map_cons, ih]
      by_cases hk : key ∈ rest.map (fun d => d.date)
      · simp [hk, List.mem_cons, hd]
      · have hnk : key ∉ (d.date :: rest.map (fun x => x.date)) := by
          intro hc
          rcases List.mem_cons.mp hc with hc | hc
          · exact hd hc.symm
          · exact hk hc
        simp [hk, List.mem_cons, hnk]

theorem bumpDay_keys_nodup (g : List DailyData) (key : String) (x e p : Int)
    (h : (g.map (fun d => d.date)).Nodup) :
    ((bumpDay g key x e p).map (fun d => d.date)).Nodup := by
  rw [bumpDay_keys]
  by_cases hk : key ∈ g.map (fun d => d.date)
  · rw [if_pos hk]; exact h
  · rw [if_neg hk]
    simp [List.nodup_append, h, hk]

theorem groupFold_keys_nodup (dayOf : Activity → String) (acts : List Activity) :
    ∀ g, (g.map (fun d => d.date)).Nodup →
      ((acts.foldl
        (fun groups a => bumpDay groups (dayOf a) (earnedXP a) (earnedXP a) (possibleXP a)) g).map
          (fun d => d.date)).Nodup := by
  induction acts with
  | nil => intro g h; exact h
  | cons a rest ih =>
    intro g h
    exact ih _ (bumpDay_keys_nodup g (dayOf a) _ _ _ h)

theorem find?_date_of_mem {g : List DailyData} {e : DailyData}
    (hnd : (g.map (fun d => d.date)).Nodup) (he : e ∈ g) :
    g.find? (fun d => d.date == e.date) = some e := by
  induction g with
  | nil => cases he
  | cons d rest ih =>
    rcases List.mem_cons.mp he with rfl | he2
    · exact List.find?_cons_of_pos _ (beq_self_eq_true _)
    · have hne : (d.date == e.date) = false := by
        refine beq_eq_false_iff_ne.mpr ?_
        intro hc
        have hmem : e.date ∈ rest.map (fun d => d.date) :=
          List.mem_map.mpr ⟨e, he2, rfl⟩
        rw [← hc] at hmem
        exact (List.nodup_cons.mp hnd).1 hmem
      rw [List.find?_cons_of_neg _ (by simp [hne])]
      exact ih (List.nodup_cons.mp hnd).2 he2

theorem groupCore_mem_totals {dayOf : Activity → String} {acts : List Activity}
    {e : DailyData} (he : e ∈ groupCore dayOf acts) :
    e.totalEarned = ((acts.filter (fun a => dayOf a == e.date)).map earnedXP).sum ∧
    e.totalPossible = ((acts.filter (fun a => dayOf a == e.date)).map possibleXP).sum := by
  have hnd : ((groupCore dayOf acts).map (fun d => d.date)).Nodup :=
    groupFold_keys_nodup dayOf acts [] (by simp)
  have hfind := find?_date_of_mem hnd he
  have htot := dayTotals_groupFold dayOf acts [] e.date
  unfold groupCore at hfind
  rw [dayTotals, hfind] at htot
  have h1 := congrArg Prod.fst htot
  have h2 := congrArg Prod.snd htot
  simp only [dayTotals, List.find?] at h1 h2
  simp at h1 h2
  exact ⟨h1, h2⟩

/-- C7.  In the daily aggregation (`groupActivitiesByDay`), each day
bucket's earned/possible totals are the sums of the per-activity
contributions, where an activity classified diagnostic-like (type
diagnostic/assessment/supplemental diagnostic/placement/supplemental,
unless its test name contains "quiz") contributes its `pointsAwarded` as
both earned and possible XP, while every other activity contributes its
`pointsAwarded` as earned and its `points` value, defaulting to 10 if
unspecified, as possible. -/
theorem daily_aggregation_contributions (dayOf : Activity → String)
    (dateMs : String → Int) (acts : List Activity) (e : DailyData)
    (he : e ∈ groupActivitiesByDay dayOf dateMs acts) :
    e.totalEarned = ((acts.filter (fun a => dayOf a == e.date)).map earnedXP).sum ∧
    e.totalPossible = ((acts.filter (fun a => dayOf a == e.date)).map possibleXP).sum ∧
    (∀ a, isDiagnostic a = true →
      earnedXP a = jsOrInt a.pointsAwarded 0 ∧
      possibleXP a = jsOrInt a.pointsAwarded 0) ∧
    (∀ a, isDiagnostic a = false →
      earnedXP a = jsOrInt a.pointsAwarded 0 ∧
      possibleXP a = jsOrInt a.points 10) := by
  simp only [groupActivitiesByDay] at he
  have he2 : e ∈ groupCore dayOf acts :=
    (List.perm_insertionSort _ _).mem_iff.mp he
  obtain ⟨h1, h2⟩ := groupCore_mem_totals he2
  refine ⟨h1, h2, ?_, ?_⟩
  · intro a ha
    exact ⟨rfl, by simp [possibleXP, ha]⟩
  · intro a ha
    exact ⟨rfl, by simp [possibleXP, ha]⟩

theorem daily_aggregation_contributions_witness :
    (({ date := "2024-01-01", xp := 7, count := 1, totalPossible := 7,
        totalEarned := 7 } : DailyData) ∈
      groupActivitiesByDay dayOfW dateMsW [actD7]) ∧
    ((7 : Int) = (([actD7].filter (fun a => dayOfW a == "2024-01-01")).map earnedXP).sum ∧
     (7 : Int) = (([actD7].filter (fun a => dayOfW a == "2024-01-01")).map possibleXP).sum ∧
     (∀ a, isDiagnostic a = true →
       earnedXP a = jsOrInt a.pointsAwarded 0 ∧
       possibleXP a = jsOrInt a.pointsAwarded 0) ∧
     (∀ a, isDiagnostic a = false →
       earnedXP a = jsOrInt a.pointsAwarded 0 ∧
       possibleXP a = jsOrInt a.points 10)) :=
  ⟨by decide,
   daily_aggregation_contributions dayOfW dateMsW [actD7]
     { date := "2024-01-01", xp := 7, count := 1, totalPossible := 7,
       totalEarned := 7 } (by decide)⟩

theorem bumpDay_bounds {g : List DailyData} {key : String} {x e p : Int}
    (hg : ∀ d ∈ g, 0 ≤ d.totalEarned ∧ d.totalEarned ≤ d.totalPossible)
    (he : 0 ≤ e) (hep : e ≤ p) :
    ∀ d ∈ bumpDay g key x e p,
      0 ≤ d.totalEarned ∧ d.totalEarned ≤ d.totalPossible := by
  induction g with
  | nil =>
    intro d hd
    rcases List.mem_singleton.mp hd with rfl
    exact ⟨he, hep⟩
  | cons d0 rest ih =>
    intro d hd
    by_cases hd0 : d0.date = key
    · simp only [bumpDay, if_pos hd0] at hd
      rcases List.mem_cons.mp hd with rfl | hd2
      · obtain ⟨ha, hb⟩ := hg d0 (List.mem_cons_self _ _)
        refine ⟨?_, ?_⟩ <;> simp <;> omega
      · exact hg d (List.mem_cons_of_mem _ hd2)
    · simp only [bumpDay, if_neg hd0] at hd
      rcases List.mem_cons.mp hd with rfl | hd2
      · exact hg d (List.mem_cons_self _ _)
      · exact ih (fun b hb => hg b (List.mem_cons_of_mem _ hb)) d hd2

theorem groupFold_bounds (dayOf : Activity → String) (acts : List Activity)
    (hacts : ∀ a ∈ acts, 0 ≤ earnedXP a ∧ earnedXP a ≤ possibleXP a) :
    ∀ g, (∀ d ∈ g, 0 ≤ d.totalEarned ∧ d.totalEarned ≤ d.totalPossible) →
      ∀ d ∈ acts.foldl
        (fun groups a => bumpDay groups (dayOf a) (earnedXP a) (earnedXP a) (possibleXP a)) g,
        0 ≤ d.totalEarned ∧ d.totalEarned ≤ d.totalPossible := by
  induction acts with
  | nil => intro g hg; exact hg
  | cons a rest ih =>
    intro g hg
    simp only [List.foldl_cons]
    exact ih (fun b hb => hacts b (List.mem_cons_of_mem _ hb)) _
      (bumpDay_bounds hg (hacts a (List.mem_cons_self _ _)).1
        (hacts a (List.mem_cons_self _ _)).2)

theorem round_ratio_bound (E P c : Int) (hE : 0 ≤ E) (hEP : E ≤ P)
    (hP : 0 < P) (hc : 0 ≤ c) :
    0 ≤ round (((E : ℚ) / (P : ℚ)) * (c : ℚ)) ∧
      round (((E : ℚ) / (P : ℚ)) * (c : ℚ)) ≤ c := by
  have hPq : (0 : ℚ) < (P : ℚ) := by exact_mod_cast hP
  have hq0 : (0 : ℚ) ≤ (E : ℚ) / (P : ℚ) :=
    div_nonneg (by exact_mod_cast hE) hPq.le
  have hq1 : (E : ℚ) / (P : ℚ) ≤ 1 :=
    (div_le_one hPq).mpr (by exact_mod_cast hEP)
  have hcq : (0 : ℚ) ≤ (c : ℚ) := by exact_mod_cast hc
  have h0 : (0 : ℚ) ≤ ((E : ℚ) / (P : ℚ)) * c := mul_nonneg hq0 hcq
  have h1 : ((E : ℚ) / (P : ℚ)) * c ≤ c := by
    calc ((E : ℚ) / (P : ℚ)) * c ≤ 1 * c := mul_le_mul_of_nonneg_right hq1 hcq
      _ = c := one_mul _
  constructor
  · rw [round_eq]
    exact Int.floor_nonneg.mpr (by linarith)
  · rw [round_eq]
    have h2 := Int.floor_le_floor (α := ℚ)
      (show ((E : ℚ) / (P : ℚ)) * c + 1 / 2 ≤ (c : ℚ) + 1 / 2 by linarith)
    have h3 : ⌊(c : ℚ) + 1 / 2⌋ = c := by
      rw [show ((c : ℚ) + 1 / 2) = (1 / 2 : ℚ) + (c : ℤ) by push_cast; ring]
      rw [Int.floor_add_int]
      norm_num
    omega

/-- C8 (amended).  Every computed attainment percentage
(`calculateXPAttainment` and the 7-day rolling attainment of
`getSuccessRateOverTimeData`) satisfies `0 ≤ value ≤ 100` provided every
activity earns a non-negative amount that does not exceed its possible
XP contribution; the value equals 0 whenever the total possible XP is 0.
(Without the proviso the code does not clamp and the value can exceed
100.) -/
theorem attainment_percentage_bounds (dayOf : Activity → String)
    (dateMs : String → Int) (acts : List Activity)
    (h : ∀ a ∈ acts, 0 ≤ earnedXP a ∧ earnedXP a ≤ possibleXP a) :
    (0 ≤ calculateXPAttainment acts ∧ calculateXPAttainment acts ≤ 100) ∧
    ((acts.map possibleXP).sum = 0 → calculateXPAttainment acts = 0) ∧
    (∀ v ∈ getSuccessRateValues dayOf dateMs acts, 0 ≤ v ∧ v ≤ 100) ∧
    (∀ w : List DailyData, (w.map (fun d => d.totalPossible)).sum = 0 →
      windowAttainment w = 0) := by
  have hE : 0 ≤ (acts.map earnedXP).sum := by
    refine List.sum_nonneg ?_
    intro x hx
    rcases List.mem_map.mp hx with ⟨a, ha, rfl⟩
    exact (h a ha).1
  have hEP : (acts.map earnedXP).sum ≤ (acts.map possibleXP).sum :=
    List.sum_le_sum (fun a ha => (h a ha).2)
  refine ⟨?_, ?_, ?_, ?_⟩
  · simp only [calculateXPAttainment]
    by_cases hP : (acts.map possibleXP).sum > 0
    · rw [if_pos hP]
      obtain ⟨hr0, hr1⟩ :=
        round_ratio_bound (acts.map earnedXP).sum (acts.map possibleXP).sum
          1000 hE hEP hP (by norm_num)
      constructor
      · exact div_nonneg (by exact_mod_cast hr0) (by norm_num)
      · rw [div_le_iff (by norm_num : (0 : ℚ) < 10)]
        have hle : ((round (((acts.map earnedXP).sum : ℚ) /
            ((acts.map possibleXP).sum : ℚ) * 1000) : ℤ) : ℚ) ≤ 1000 := by
          exact_mod_cast hr1
        linarith
    · rw [if_neg hP]
      norm_num
  · intro h0
    simp only [calculateXPAttainment]
    rw [h0]
    norm_num
  · intro v hv
    simp only [getSuccessRateValues] at hv
    rcases List.mem_map.mp hv with ⟨i, _, rfl⟩
    have hdaily : ∀ d ∈ groupActivitiesByDay dayOf dateMs acts,
        0 ≤ d.totalEarned ∧ d.totalEarned ≤ d.totalPossible := by
      intro d hd
      simp only [groupActivitiesByDay] at hd
      have hd2 : d ∈ groupCore dayOf acts :=
        (List.perm_insertionSort _ _).mem_iff.mp hd
      exact groupFold_bounds dayOf acts h [] (by intro b hb; cases hb) d hd2
    have hwin : ∀ d ∈ rollingWindow (groupActivitiesByDay dayOf dateMs acts) i,
        0 ≤ d.totalEarned ∧ d.totalEarned ≤ d.totalPossible := by
      intro d hd
      simp only [rollingWindow] at hd
      refine hdaily d ?_
      exact ((List.take_sublist _ _).trans (List.drop_sublist _ _)).subset hd
    have hE2 : 0 ≤ ((rollingWindow (groupActivitiesByDay dayOf dateMs acts) i).map
        (fun d => d.totalEarned)).sum := by
      refine List.sum_nonneg ?_
      intro x hx
      rcases List.mem_map.mp hx with ⟨d, hd, rfl⟩
      exact (hwin d hd).1
    have hEP2 : ((rollingWindow (groupActivitiesByDay dayOf dateMs acts) i).map
        (fun d => d.totalEarned)).sum ≤
        ((rollingWindow (groupActivitiesByDay dayOf dateMs acts) i).map
        (fun d => d.totalPossible)).sum :=
      List.sum_le_sum (fun d hd => (hwin d hd).2)
    simp only [windowAttainment]
    by_cases hP : ((rollingWindow (groupActivitiesByDay dayOf dateMs acts) i).map
        (fun d => d.totalPossible)).sum > 0
    · rw [if_pos hP]
      obtain ⟨hr0, hr1⟩ := round_ratio_bound _ _ 100 hE2 hEP2 hP (by norm_num)
      constructor
      · exact_mod_cast hr0
      · exact_mod_cast hr1
    · rw [if_neg hP]
      norm_num
  · intro w h0
    simp only [windowAttainment]
    rw [h0]
    norm_num

theorem attainment_percentage_bounds_witness :
    (∀ a ∈ [actHalf], 0 ≤ earnedXP a ∧ earnedXP a ≤ possibleXP a) ∧
    ((0 ≤ calculateXPAttainment [actHalf] ∧ calculateXPAttainment [actHalf] ≤ 100) ∧
     (([actHalf].map possibleXP).sum = 0 → calculateXPAttainment [actHalf] = 0) ∧
     (∀ v ∈ getSuccessRateValues dayOfW dateMsW [actHalf], 0 ≤ v ∧ v ≤ 100) ∧
     (∀ w : List DailyData, (w.map (fun d => d.totalPossible)).sum = 0 →
       windowAttainment w = 0)) :=
  ⟨by decide,
   attainment_percentage_bounds dayOfW dateMsW [actHalf] (by decide)⟩

/-- Counterexample to the unconditional 0-100 bound: a non-diagnostic
activity with `pointsAwarded = 20` and `points = 10` yields an attainment
of 200 percent. -/
theorem attainment_over_100_counterexample :
    calculateXPAttainment [actOver] = 200 ∧
      ¬ (calculateXPAttainment [actOver] ≤ 100) := by
  have hE : (List.map earnedXP [actOver]).sum = 20 := by decide
  have hP : (List.map possibleXP [actOver]).sum = 10 := by decide
  have hval : calculateXPAttainment [actOver] = 200 := by
    simp only [calculateXPAttainment, hE, hP]
    norm_num [round_eq]
  exact ⟨hval, by rw [hval]; norm_num⟩

theorem enrichFrontier_perm (topics : List FrontierTopic) :
    ((enrichFrontier topics).map (fun e => e.topic)).Perm
      (topics.filter isFrontier) := by
  have h1 : (enrichFrontier topics).Perm
      ((topics.filter isFrontier).map (enrichTopic topics)) :=
    List.perm_insertionSort _ _
  have h2 := h1.map (fun e => e.topic)
  rw [List.map_map] at h2
  have h3 : (topics.filter isFrontier).map
      ((fun e => e.topic) ∘ enrichTopic topics) = topics.filter isFrontier := by
    have hc : ∀ t ∈ topics.filter isFrontier,
        ((fun e => e.topic) ∘ enrichTopic topics) t = id t := fun t _ => rfl
    rw [List.map_congr_left hc, List.map_id]
  rw [h3] at h2
  exact h2

theorem enrichTopic_sortKey (topics : List FrontierTopic) (t : FrontierTopic) :
    (enrichTopic topics t).sortKey = sortKeySpec topics t := rfl

theorem enrichFrontier_sorted (topics : List FrontierTopic) :
    (enrichFrontier topics).Pairwise
      (fun a b => sortKeyLE b.sortKey a.sortKey = true ∧
        (a.sortKey = none → b.sortKey = none)) := by
  refine (List.sorted_insertionSort enrichedKeyGE _).imp ?_
  intro a b hab
  refine ⟨hab, ?_⟩
  intro hna
  cases hb : b.sortKey with
  | none => rfl
  | some v =>
    unfold enrichedKeyGE at hab
    rw [hna, hb] at hab
    simp [sortKeyLE] at hab

/-- C9.  The list returned by `fetchFrontierTopics` contains exactly the
topics whose frontier flag is literally 1, true, or "1" (no other
encoding counts), each carrying a sort key equal to the average of the
median and the minimum of its resolved prerequisites' repetition values —
or `-Infinity` (here `none`) when either is unavailable — and the list is
sorted descending by this sort key, so that topics with unresolvable
prerequisite statistics rank last. -/
theorem frontier_ranking (topics : List FrontierTopic)
    (e : EnrichedFrontierTopic) (he : e ∈ enrichFrontier topics) :
    e.sortKey = sortKeySpec topics e.topic ∧
    ((enrichFrontier topics).map (fun x => x.topic)).Perm
      (topics.filter isFrontier) ∧
    (enrichFrontier topics).Pairwise
      (fun a b => sortKeyLE b.sortKey a.sortKey = true ∧
        (a.sortKey = none → b.sortKey = none)) := by
  refine ⟨?_, enrichFrontier_perm topics, enrichFrontier_sorted topics⟩
  simp only [enrichFrontier] at he
  have he2 : e ∈ (topics.filter isFrontier).map (enrichTopic topics) :=
    (List.perm_insertionSort _ _).mem_iff.mp he
  rcases List.mem_map.mp he2 with ⟨t, _, rfl⟩
  exact enrichTopic_sortKey topics t

theorem frontier_ranking_witness :
    (enrichTopic topicsW topF1 ∈ enrichFrontier topicsW) ∧
    ((enrichTopic topicsW topF1).sortKey =
        sortKeySpec topicsW (enrichTopic topicsW topF1).topic ∧
     ((enrichFrontier topicsW).map (fun x => x.topic)).Perm
        (topicsW.filter isFrontier) ∧
     (enrichFrontier topicsW).Pairwise
        (fun a b => sortKeyLE b.sortKey a.sortKey = true ∧
          (a.sortKey = none → b.sortKey = none))) :=
  ⟨by
     rw [show enrichFrontier topicsW =
       [enrichTopic topicsW topF1, enrichTopic topicsW topF2] from rfl]
     exact List.mem_cons_self _ _,
   frontier_ranking topicsW (enrichTopic topicsW topF1)
     (by
       rw [show enrichFrontier topicsW =
         [enrichTopic topicsW topF1, enrichTopic topicsW topF2] from rfl]
       exact List.mem_cons_self _ _)⟩

theorem previewOf_length_le (sd : String) : (previewOf sd).length ≤ 500 := by
  have h : (previewOf sd).length = (sd.toList.take 500).length := rfl
  rw [h, List.length_take]
  omega

theorem netErrMsg_contains_url (m url : String) :
    containsStr (netErrMsg m url) url := by
  refine ⟨"Failed to fetch: " ++ m ++ "\nURL: ",
    "\nThis might be a network error, CORS issue, or missing host_permissions in the extension manifest.",
    ?_⟩
  simp [netErrMsg, String.append_assoc]

theorem httpErrMsg_contains_url (status : Nat) (statusText url : String) :
    containsStr (httpErrMsg status statusText url) url := by
  refine ⟨"HTTP " ++ toString status ++ " " ++ statusText ++ " - URL: ", "", ?_⟩
  simp [httpErrMsg, String.append_assoc, String.append_empty]

theorem nonArrayErrMsg_contains_url (tn sd url : String) :
    containsStr (nonArrayErrMsg tn sd url) url := by
  refine ⟨"Expected array page but received " ++ tn ++ ".\nURL: ",
    "\nResponse preview: " ++ previewOf sd ++
      (if (previewOf sd).length = 500 then "..." else ""), ?_⟩
  simp [nonArrayErrMsg, String.append_assoc]

theorem nonArrayErrMsg_contains_preview (tn sd url : String) :
    containsStr (nonArrayErrMsg tn sd url) (previewOf sd) := by
  refine ⟨"Expected array page but received " ++ tn ++ ".\nURL: " ++ url ++
      "\nResponse preview: ",
    (if (previewOf sd).length = 500 then "..." else ""), ?_⟩
  simp [nonArrayErrMsg, String.append_assoc]

/-- C6 (amended).  `fetchPage` fails (throws) exactly when the HTTP
response is non-2xx, the network request itself fails, the body of a 2xx
response is not valid JSON, or the parsed JSON body is not an array.  The
error message includes the requested URL in the network-failure, non-2xx
and non-array cases; in the invalid-JSON case the uncaught rejection of
`await response.json()` propagates the engine SyntaxError itself, whose
message carries no URL and no payload preview.  In the non-array case the
message additionally includes a preview of the bad payload truncated to
500 characters. -/
theorem fetchPage_error_semantics (url : String) (outcome : FetchOutcome) :
    ((∃ msg, fetchPage url outcome = .error msg) ↔
      ((∃ m, outcome = .netError m) ∨
       (∃ st stx b, outcome = .response st stx b ∧ ¬ (200 ≤ st ∧ st ≤ 299)) ∨
       (∃ st stx em, outcome = .response st stx (.invalidJson em)) ∨
       (∃ st stx tn sd, outcome = .response st stx (.nonArray tn sd)))) ∧
    (∀ msg, fetchPage url outcome = .error msg →
      containsStr msg url ∨
        ∃ st stx, outcome = .response st stx (.invalidJson msg)) ∧
    (∀ st stx em, outcome = .response st stx (.invalidJson em) →
      (200 ≤ st ∧ st ≤ 299) → fetchPage url outcome = .error em) ∧
    (∀ st stx tn sd, outcome = .response st stx (.nonArray tn sd) →
      (200 ≤ st ∧ st ≤ 299) →
      fetchPage url outcome = .error (nonArrayErrMsg tn sd url) ∧
      containsStr (nonArrayErrMsg tn sd url) (previewOf sd) ∧
      (previewOf sd).length ≤ 500) := by
  refine ⟨⟨?_, ?_⟩, ?_, ?_, ?_⟩
  · rintro ⟨msg, hmsg⟩
    cases outcome with
    | netError m => exact Or.inl ⟨m, rfl⟩
    | response st stx body =>
      by_cases hst : 200 ≤ st ∧ st ≤ 299
      · cases body with
        | arr xs =>
          simp [fetchPage, hst] at hmsg
        | nonArray tn sd =>
          exact Or.inr (Or.inr (Or.inr ⟨st, stx, tn, sd, rfl⟩))
        | invalidJson em =>
          exact Or.inr (Or.inr (Or.inl ⟨st, stx, em, rfl⟩))
      · exact Or.inr (Or.inl ⟨st, stx, body, rfl, hst⟩)
  · rintro (⟨m, rfl⟩ | ⟨st, stx, body, rfl, hst⟩ | ⟨st, stx, em, rfl⟩ |
      ⟨st, stx, tn, sd, rfl⟩)
    · exact ⟨netErrMsg m url, rfl⟩
    · exact ⟨httpErrMsg st stx url, by simp [fetchPage, hst]⟩
    · by_cases hst : 200 ≤ st ∧ st ≤ 299
      · exact ⟨em, by simp [fetchPage, hst]⟩
      · exact ⟨httpErrMsg st stx url, by simp [fetchPage, hst]⟩
    · by_cases hst : 200 ≤ st ∧ st ≤ 299
      · exact ⟨nonArrayErrMsg tn sd url, by simp [fetchPage, hst]⟩
      · exact ⟨httpErrMsg st stx url, by simp [fetchPage, hst]⟩
  · intro msg hmsg
    cases outcome with
    | netError m =>
      simp only [fetchPage, Except.error.injEq] at hmsg
      rw [← hmsg]
      exact Or.inl (netErrMsg_contains_url m url)
    | response st stx body =>
      by_cases hst : 200 ≤ st ∧ st ≤ 299
      · cases body with
        | arr xs => simp [fetchPage, hst] at hmsg
        | nonArray tn sd =>
          have heq : fetchPage url (.response st stx (.nonArray tn sd)) =
              .error (nonArrayErrMsg tn sd url) := by
            simp only [fetchPage]
            rw [if_neg (not_not_intro hst)]
          rw [heq] at hmsg
          injection hmsg with h
          rw [← h]
          exact Or.inl (nonArrayErrMsg_contains_url tn sd url)
        | invalidJson em =>
          have heq : fetchPage url (.response st stx (.invalidJson em)) =
              .error em := by
            simp only [fetchPage]
            rw [if_neg (not_not_intro hst)]
          rw [heq] at hmsg
          injection hmsg with h
          exact Or.inr ⟨st, stx, by rw [← h]⟩
      · simp only [fetchPage, if_pos hst, Except.error.injEq] at hmsg
        rw [← hmsg]
        exact Or.inl (httpErrMsg_contains_url st stx url)
  · rintro st stx em rfl hst
    simp only [fetchPage]
    rw [if_neg (not_not_intro hst)]
  · rintro st stx tn sd rfl hst
    exact ⟨by simp [fetchPage, hst], nonArrayErrMsg_contains_preview tn sd url,
      previewOf_length_le sd⟩

theorem fetchPage_error_semantics_witness :
    ((∃ msg, fetchPage "https://mathacademy.com/api/previous-tasks/x"
        (.response 500 "Internal Server Error" (.arr [])) = .error msg) ↔
      ((∃ m, (FetchOutcome.response 500 "Internal Server Error" (.arr [])) = .netError m) ∨
       (∃ st stx b, (FetchOutcome.response 500 "Internal Server Error" (.arr [])) =
          .response st stx b ∧ ¬ (200 ≤ st ∧ st ≤ 299)) ∨
       (∃ st stx em, (FetchOutcome.response 500 "Internal Server Error" (.arr [])) =
          .response st stx (.invalidJson em)) ∨
       (∃ st stx tn sd, (FetchOutcome.response 500 "Internal Server Error" (.arr [])) =
          .response st stx (.nonArray tn sd)))) ∧
    (∀ msg, fetchPage "https://mathacademy.com/api/previous-tasks/x"
        (.response 500 "Internal Server Error" (.arr [])) = .error msg →
      containsStr msg "https://mathacademy.com/api/previous-tasks/x" ∨
        ∃ st stx, (FetchOutcome.response 500 "Internal Server Error" (.arr [])) =
          .response st stx (.invalidJson msg)) ∧
    (∀ st stx em, (FetchOutcome.response 500 "Internal Server Error" (.arr [])) =
        .response st stx (.invalidJson em) →
      (200 ≤ st ∧ st ≤ 299) →
      fetchPage "https://mathacademy.com/api/previous-tasks/x"
        (.response 500 "Internal Server Error" (.arr [])) = .error em) ∧
    (∀ st stx tn sd, (FetchOutcome.response 500 "Internal Server Error" (.arr [])) =
        .response st stx (.nonArray tn sd) →
      (200 ≤ st ∧ st ≤ 299) →
      fetchPage "https://mathacademy.com/api/previous-tasks/x"
          (.response 500 "Internal Server Error" (.arr [])) =
        .error (nonArrayErrMsg tn sd "https://mathacademy.com/api/previous-tasks/x") ∧
      containsStr (nonArrayErrMsg tn sd "https://mathacademy.com/api/previous-tasks/x")
        (previewOf sd) ∧
      (previewOf sd).length ≤ 500) :=
  fetchPage_error_semantics "https://mathacademy.com/api/previous-tasks/x"
    (.response 500 "Internal Server Error" (.arr []))

theorem not_containsStr_of_short {msg sub : String}
    (h : msg.length < sub.length) : ¬ containsStr msg sub := by
  rintro ⟨p, q, rfl⟩
  rw [String.length_append, String.length_append] at h
  omega

/-- Counterexample to the original claim that `fetchPage` fails only on a
non-2xx status, a network failure, or a non-array JSON body, with every
error message containing the requested URL: a 2xx response whose body is
not valid JSON makes `fetchPage` throw the bare engine SyntaxError (the
uncaught rejection of `await response.json()`), whose message contains
neither the URL nor a payload preview. -/
theorem fetch_page_json_error_counterexample :
    fetchPage "https://mathacademy.com/api/previous-tasks/x"
        (.response 200 "OK" (.invalidJson "Unexpected end of JSON input")) =
      .error "Unexpected end of JSON input" ∧
    ¬ containsStr "Unexpected end of JSON input"
        "https://mathacademy.com/api/previous-tasks/x" :=
  ⟨rfl, not_containsStr_of_short (by decide)⟩

/-- C10.  Reading the cache is total and format-tolerant: for every
stored value under the cache key, `readCache` returns an array and never
throws — it accepts both the legacy bare-array format and the wrapped
`{items, updatedAt}` payload, and returns the empty list when the key is
absent or empty, the JSON is unparsable, or the parsed value has neither
shape; `getCachedActivities` returns a sorted copy of that array. -/
theorem cache_read_total :
    (∀ raw, getCachedFromRaw raw = sortActivities (readCache raw)) ∧
    (∀ xs, readCache (.jsonArr xs) = xs) ∧
    (∀ xs u, readCache (.jsonObjWithItems xs u) = xs) ∧
    readCache .absent = [] ∧
    readCache .invalidJson = [] ∧
    readCache .jsonTruthyNoItems = [] ∧
    readCache .jsonFalsy = [] :=
  ⟨fun _ => rfl, fun _ => rfl, fun _ _ => rfl, rfl, rfl, rfl, rfl⟩
